import Mathlib

/-!
Verification development for the deterministic text-reconciliation layer of the
medical-diarization pipeline (chunk merging, timestamp alignment, post-processing
stages A-E, dosage plausibility).

The Python source is embedded shallowly:
* strings are processed as `List Char` (`String.data`), with `String` wrappers at
  the API boundary;
* CPython float arithmetic on the few threshold comparisons (`0.9`, `0.85`, `0.7`,
  `0.5`, `1.5`, linear interpolation) is modelled with exact rationals `ℚ` — all
  constants involved are exact decimals and the comparisons are not boundary
  [loss-of-precision] sensitive for the integer/decimal data the code handles;
* unbounded `while`/regex scans are written as fuel-indexed structural recursions,
  with the fuel instantiated to a bound that dominates the loop variant, so that
  every definition reduces inside the kernel;
* `difflib.SequenceMatcher` (stdlib, `isjunk=None`) is embedded below: `b2j` index
  map with the autojunk popularity purge, the `find_longest_match` dynamic
  programming pass with both non-junk extension phases (the junk set is empty when
  `isjunk is None`), and `get_matching_blocks` as the standard divide-and-conquer
  around the longest match, followed by the adjacent-block merge and the terminal
  sentinel. The queue in CPython only orders traversal; the returned list is sorted,
  which coincides with the in-order concatenation used here.
* Python `int` timestamps are embedded as `Nat`: the data model of the spec fixes
  `start_ms`/`duration_ms` as non-negative integers, and `int()` truncation on the
  non-negative interpolants below coincides with the rational floor.
-/

set_option maxRecDepth 100000

namespace MedTrans

/-- Whitespace as recognised by Python `str.split` / `strip` / regex `\s`,
restricted to the ASCII range that the pipeline's data can contain. -/
def pyIsSpace (c : Char) : Bool :=
  c = ' ' || c = '\t' || c = '\n' || c = '\r' || c = '\x0b' || c = '\x0c'

/-- Python regex `\w` (unicode word character), restricted to the scripts this
codebase processes: ASCII alphanumerics, underscore, and the Hebrew letter block
(including final forms). -/
def isWordChar (c : Char) : Bool :=
  c.isAlphanum || c = '_' || (0x5d0 ≤ c.toNat && c.toNat ≤ 0x5ea)

/-- ASCII lowercasing, as applied by Python `str.lower` to the ASCII/Hebrew data
in this pipeline (Hebrew has no case). -/
def lowerChar (c : Char) : Char := c.toLower

def lowerStr (l : List Char) : List Char := l.map lowerChar

/-- Python `str.strip()` on a char list. -/
def pyStrip (l : List Char) : List Char :=
  ((l.dropWhile pyIsSpace).reverse.dropWhile pyIsSpace).reverse

/-- Python `str.lstrip()`. -/
def pyLstrip (l : List Char) : List Char := l.dropWhile pyIsSpace

/-- Python `str.rstrip()`. -/
def pyRstrip (l : List Char) : List Char :=
  (l.reverse.dropWhile pyIsSpace).reverse

/-- Python `str.split()` with no argument: split on whitespace runs, dropping
empty pieces. -/
def pyWordsStep (c : Char) (acc : List (List Char)) : List (List Char) :=
  if pyIsSpace c then [] :: acc
  else match acc with
    | [] => [[c]]
    | w :: ws => (c :: w) :: ws

def pyWords (l : List Char) : List (List Char) :=
  (l.foldr pyWordsStep []).filter (fun w => ¬ w.isEmpty)

/-- Python `'\n'.join`-style interleave of a separator char. -/
def joinWith (sep : Char) : List (List Char) → List Char
  | [] => []
  | [x] => x
  | x :: xs => x ++ sep :: joinWith sep xs

/-- Python `sep in s` substring test (`List.isInfix` is decidable; this is the
executable form used throughout). -/
def containsSub (hay needle : List Char) : Bool :=
  (List.range (hay.length + 1)).any (fun i => needle.isPrefixOf (hay.drop i))

/-- First index at which `needle` occurs in `hay` (Python `str.find`, returning
`none` for Python's `-1`). -/
def findSub (hay needle : List Char) : Option Nat :=
  (List.range (hay.length + 1)).find? (fun i => needle.isPrefixOf (hay.drop i))

/-! ## difflib.SequenceMatcher (isjunk = None) -/

/-- `b2j` of `difflib.SequenceMatcher.__chain_b`: the ascending list of indices of
`x` in `b`, with the element purged when autojunk applies (`len(b) >= 200` and the
element occurs in more than `len(b)//100 + 1` positions). -/
def b2j [DecidableEq α] (b : List α) (autojunk : Bool) (x : α) : List Nat :=
  let idxs := (b.enum.filter (fun p => p.2 = x)).map (·.1)
  if autojunk ∧ b.length ≥ 200 ∧ idxs.length > b.length / 100 + 1 then []
  else idxs

/-- `j2len.get(j-1, 0)` of the dynamic program (Python's `-1` key on `j = 0` is
always absent, hence 0). -/
def j2lenGet (j2len : List (Nat × Nat)) (j : Nat) : Nat :=
  if j = 0 then 0 else
    ((j2len.find? (fun p => p.1 = j - 1)).map (fun p => p.2)).getD 0

/-- One step of a `find_longest_match` row: record `k = j2len.get(j-1,0) + 1`
for `j` and update the running best when `k` exceeds it. -/
def flmStep (i : Nat) (j2len : List (Nat × Nat))
    (st : List (Nat × Nat) × (Nat × Nat × Nat)) (j : Nat) :
    List (Nat × Nat) × (Nat × Nat × Nat) :=
  let k := j2lenGet j2len j + 1
  ((j, k) :: st.1, if k > st.2.2.2 then (i + 1 - k, j + 1 - k, k) else st.2)

/-- One row of the `find_longest_match` dynamic program: fold over the `b`-indices
of `a[i]` (ascending, clipped to `[blo, bhi)` exactly as the `continue`/`break`
pair does), building `newj2len` and updating the running best match. -/
def flmRow (i blo bhi : Nat) (js : List Nat) (j2len : List (Nat × Nat)) :
    List (Nat × Nat) × (Nat × Nat × Nat) → List (Nat × Nat) × (Nat × Nat × Nat) :=
  fun st =>
    ((js.takeWhile (· < bhi)).filter (fun j => blo ≤ j)).foldl
      (flmStep i j2len) st

/-- The dynamic-programming phase of `find_longest_match` over rows
`i ∈ [alo, ahi)`. -/
def flmDP [DecidableEq α] (a : List α) (bj : α → List Nat)
    (alo ahi blo bhi : Nat) : Nat × Nat × Nat :=
  ((List.range' alo (ahi - alo)).foldl
    (fun (st : List (Nat × Nat) × (Nat × Nat × Nat)) i =>
      flmRow i blo bhi ((a.get? i).elim [] bj) st.1 ([], st.2))
    ([], (alo, blo, 0))).2

/-- Left extension phase of `find_longest_match` (the junk set is empty, so only
the plain-element extension can fire). Fuel bounds the loop by `i`. -/
def extLeft [DecidableEq α] (a b : List α) (alo blo : Nat) :
    Nat → Nat × Nat × Nat → Nat × Nat × Nat
  | 0, st => st
  | fuel + 1, (i, j, k) =>
    if alo < i ∧ blo < j ∧ (a.get? (i - 1)).isSome ∧ a.get? (i - 1) = b.get? (j - 1)
    then extLeft a b alo blo fuel (i - 1, j - 1, k + 1)
    else (i, j, k)

/-- Right extension phase of `find_longest_match`. -/
def extRight [DecidableEq α] (a b : List α) (ahi bhi : Nat) :
    Nat → Nat × Nat × Nat → Nat × Nat × Nat
  | 0, st => st
  | fuel + 1, (i, j, k) =>
    if i + k < ahi ∧ j + k < bhi ∧ (a.get? (i + k)).isSome ∧ a.get? (i + k) = b.get? (j + k)
    then extRight a b ahi bhi fuel (i, j, k + 1)
    else (i, j, k)

/-- `find_longest_match(alo, ahi, blo, bhi)`. -/
def flm [DecidableEq α] (a b : List α) (bj : α → List Nat)
    (alo ahi blo bhi : Nat) : Nat × Nat × Nat :=
  extRight a b ahi bhi (ahi + bhi)
    (extLeft a b alo blo (ahi + bhi) (flmDP a bj alo ahi blo bhi))

/-- The divide-and-conquer of `get_matching_blocks`, in in-order form (CPython
collects the same blocks through a LIFO queue and then sorts; the blocks of the
two sub-problems are separated in both coordinates, so the sorted result is this
concatenation). Fuel dominates the variant `(ahi-alo)+(bhi-blo)`. -/
def gmbGo [DecidableEq α] (a b : List α) (bj : α → List Nat) :
    Nat → Nat → Nat → Nat → Nat → List (Nat × Nat × Nat)
  | 0, _, _, _, _ => []
  | fuel + 1, alo, ahi, blo, bhi =>
    let m := flm a b bj alo ahi blo bhi
    if m.2.2 = 0 then []
    else
      gmbGo a b bj fuel alo m.1 blo m.2.1 ++
        m :: gmbGo a b bj fuel (m.1 + m.2.2) ahi (m.2.1 + m.2.2) bhi

/-- The adjacent-block merge at the end of `get_matching_blocks`. -/
def mergeAdjacent : List (Nat × Nat × Nat) → Nat × Nat × Nat → List (Nat × Nat × Nat)
  | [], acc => if acc.2.2 ≠ 0 then [acc] else []
  | (i2, j2, k2) :: rest, (i1, j1, k1) =>
    if i1 + k1 = i2 ∧ j1 + k1 = j2 then mergeAdjacent rest (i1, j1, k1 + k2)
    else (if k1 ≠ 0 then [(i1, j1, k1)] else []) ++ mergeAdjacent rest (i2, j2, k2)

/-- `SequenceMatcher(None, a, b, autojunk).get_matching_blocks()`, including the
terminal `(la, lb, 0)` sentinel. -/
def matchingBlocks [DecidableEq α] (a b : List α) (autojunk : Bool) :
    List (Nat × Nat × Nat) :=
  mergeAdjacent
    (gmbGo a b (b2j b autojunk) (a.length + b.length + 1) 0 a.length 0 b.length)
    (0, 0, 0) ++ [(a.length, b.length, 0)]

/-- `SequenceMatcher.ratio()` as an exact rational: `2*M / (len(a)+len(b))` where
`M` is the total size of the matching blocks (1.0 on two empty sequences). -/
def matcherScore [DecidableEq α] (a b : List α) (autojunk : Bool) : ℚ :=
  if a.length + b.length = 0 then 1
  else (2 * ((matchingBlocks a b autojunk).map (·.2.2)).sum : ℚ) /
    (a.length + b.length)

/-- `SequenceMatcher(None, a, b).ratio() > 0.85`, decided exactly by
cross-multiplication: `2M/(la+lb) > 17/20  ⟺  40M > 17(la+lb)` (and `1.0 > 0.85`
for two empty sequences). `matcherScore_gt85_iff` relates this to
`matcherScore`. -/
def ratioGt85 [DecidableEq α] (a b : List α) : Bool :=
  if a.length + b.length = 0 then true
  else 40 * ((matchingBlocks a b true).map (·.2.2)).sum > 17 * (a.length + b.length)

/-! ## alignment.py — fuzzy word alignment -/

/-- `{"word": str, "offset_ms": int, "duration_ms": int}` from Azure STT
(`TranscribedWord` of the spec's data model: non-negative integer times). -/
structure SttWord where
  word : String
  offset_ms : Nat
  duration_ms : Nat
deriving Repr, DecidableEq, Inhabited

/-- One output record of `align_timestamps`. `speaker` and `line_index` are absent
keys until `_attach_speakers` runs; they are carried here as defaulted fields. -/
structure AnnWord where
  word : String
  start_ms : Option Nat
  end_ms : Option Nat
  speaker : Option String
  is_interpolated : Bool
  line_index : Nat
deriving Repr, DecidableEq, Inhabited

/-- `{label, before_word_index}` produced by `_strip_speaker_labels`. -/
structure SpeakerLabel where
  label : String
  before_word_index : Nat
deriving Repr, DecidableEq

/-- `SPEAKER_LABEL_RE.match(line)`: the anchored pattern `\[([^\]]+)\]:\s*`.
Returns the label and the remainder of the line after `m.end()` when it matches.
`[^\]]+` is a maximal nonempty run of non-`]` characters followed by the literal
`]`, `:`, and a maximal whitespace run. -/
def matchSpeakerLabel (l : List Char) : Option (List Char × List Char) :=
  match l with
  | '[' :: rest =>
    let label := rest.takeWhile (· ≠ ']')
    if label.isEmpty then none
    else match rest.drop label.length with
      | ']' :: ':' :: rest' => some (label, rest'.dropWhile pyIsSpace)
      | _ => none
  | _ => none

/-- `_strip_speaker_labels(text)`: flatten the (stripped, non-blank) lines into a
word list, recording each leading speaker label with the word index at which it
appears. Line boundaries are `\n` (the pipeline's texts use only `\n`). -/
def stripSpeakerLabels (text : String) : List String × List SpeakerLabel :=
  let step := fun (st : List String × List SpeakerLabel) (lineRaw : List Char) =>
    let line := pyStrip lineRaw
    if line.isEmpty then st
    else
      let (words, labels) := st
      let (labels', body) :=
        match matchSpeakerLabel line with
        | some (lab, rest) =>
          (labels ++ [⟨⟨lab⟩, words.length⟩], rest)
        | none => (labels, line)
      (words ++ (pyWords body).map (fun w => (⟨w⟩ : String)), labels')
  ((text.data.splitOn '\n').foldl step ([], []))

/-- Characters stripped by `_normalize_word`'s regex
`[.,;:!?"\'-—–…()״׳]`. Inside a character class `\'-—` parses as the range
U+0027–U+2014, which covers the listed mid-range punctuation and also all
Latin letters, digits and Hebrew letters; the members outside that range are
exactly `!` (U+0021), `"` (U+0022) and `…` (U+2026). -/
def alignPunct (c : Char) : Bool :=
  c = '!' || c = '"' || c = '…' || (39 ≤ c.toNat && c.toNat ≤ 8212)

/-- `_normalize_word(w)`: drop the punctuation set, strip, lowercase. -/
def normalizeWord (w : String) : String :=
  ⟨lowerStr (pyStrip (w.data.filter (fun c => ¬ alignPunct c)))⟩

/-- The `gpt_index → stt_index` map built from the matching blocks. The blocks
are pairwise disjoint, so the first block covering `i` is the unique one. -/
def blockLookup (blocks : List (Nat × Nat × Nat)) (i : Nat) : Option Nat :=
  blocks.findSome? (fun m =>
    if m.1 ≤ i ∧ i < m.1 + m.2.2 then some (m.2.1 + (i - m.1)) else none)

/-- The walk of `_attach_speakers`/`_build_fallback` that tracks the current
speaker: at each word index the label registered for that index (dict semantics:
last label wins) replaces the running speaker. -/
def currentSpeakerAt (labels : List SpeakerLabel) (i : Nat) : Option String :=
  (List.range (i + 1)).foldl
    (fun cur idx =>
      match (labels.filter (fun lb => lb.before_word_index = idx)).getLast? with
      | some lb => some lb.label
      | none => cur)
    none

/-- `_build_fallback`: words with no timestamps. -/
def buildFallback (gptWords : List String) (labels : List SpeakerLabel) :
    List AnnWord :=
  gptWords.enum.map (fun p =>
    { word := p.2, start_ms := none, end_ms := none,
      speaker := currentSpeakerAt labels p.1, is_interpolated := true,
      line_index := 0 })

/-- `_interpolate_gaps`, written as a left-to-right pass. `leftEnd` carries
`annotated[i-1]["end_ms"]` (0 before the first word). A gap of `g` words with
bounds `L`, `R` gets `per = max((R - L)/g, 0)` and word `k` gets
`[int(L + k*per), int(L + (k+1)*per))`; with no right anchor `R = L + g*200`.
Here truncated ℕ subtraction realizes the max with 0, and for the non-negative
exact rational `per` the truncation `int(L + k*per)` is `L + k*(R ∸ L)/g` in ℕ
division. Fuel bounds the loop by the list length. -/
def fillGaps : Nat → Nat → List AnnWord → List AnnWord
  | 0, _, l => l
  | fuel + 1, leftEnd, l =>
    match l with
    | [] => []
    | w :: rest =>
      if w.start_ms.isSome then
        w :: fillGaps fuel (w.end_ms.getD 0) rest
      else
        let gap := l.takeWhile (fun x => x.start_ms.isNone)
        let rest' := l.dropWhile (fun x => x.start_ms.isNone)
        let g := gap.length
        let rightStart : Nat :=
          match rest' with
          | r :: _ => r.start_ms.getD 0
          | [] => leftEnd + g * 200
        let per := rightStart - leftEnd
        let filled := gap.enum.map (fun p =>
          { p.2 with
            start_ms := some (leftEnd + p.1 * per / g),
            end_ms := some (leftEnd + (p.1 + 1) * per / g) })
        filled ++ fillGaps fuel (leftEnd + g * per / g) rest'

/-- The per-line word/`line_index` assignment of `_attach_speakers`: the word at
flat position `i` belongs to the `line_index`-th non-blank line. -/
def lineAssignments (text : String) : List Nat :=
  (((text.data.splitOn '\n').map pyStrip).filter (fun l => ¬ l.isEmpty)).enum.flatMap
    (fun p =>
      let body := match matchSpeakerLabel p.2 with
        | some (_, rest) => rest
        | none => p.2
      List.replicate (pyWords body).length p.1)

/-- `_attach_speakers`: set `speaker` and `line_index` on every word index covered
by the line walk (indices past the walk keep their creation-time fields, matching
the `word_idx < len(annotated)` guard). -/
def attachSpeakers (annotated : List AnnWord) (labels : List SpeakerLabel)
    (text : String) : List AnnWord :=
  let asg := lineAssignments text
  annotated.enum.map (fun p =>
    match asg.get? p.1 with
    | some li => { p.2 with speaker := currentSpeakerAt labels p.1, line_index := li }
    | none => p.2)

/-- `align_timestamps(stt_words, final_text)`. -/
def alignTimestamps (stt : List SttWord) (final_text : String) : List AnnWord :=
  let sp := stripSpeakerLabels final_text
  let gptWords := sp.1
  let labels := sp.2
  if gptWords.isEmpty ∨ stt.isEmpty then buildFallback gptWords labels
  else
    let sttNorm := stt.map (fun w => normalizeWord w.word)
    let gptNorm := gptWords.map normalizeWord
    let blocks := matchingBlocks gptNorm sttNorm false
    let annotated := gptWords.enum.map (fun p =>
      match blockLookup blocks p.1 with
      | some j =>
        let sw := stt.getD j default
        { word := p.2, start_ms := some sw.offset_ms,
          end_ms := some (sw.offset_ms + sw.duration_ms), speaker := none,
          is_interpolated := false, line_index := 0 }
      | none =>
        { word := p.2, start_ms := none, end_ms := none, speaker := none,
          is_interpolated := true, line_index := 0 })
    let annotated := fillGaps annotated.length 0 annotated
    attachSpeakers annotated labels final_text

/-! ## transcribe.py — algorithmic chunk merging -/

/-- A separator of `re.split(r'[\n.?!]', ...)`. -/
def sentSep (c : Char) : Bool :=
  c = '\n' || c = '.' || c = '?' || c = '!'

/-- `re.split` on a single-character class: split at every separator, keeping
empty pieces (they are filtered later by the length bound). -/
def splitAnyOf (sep : Char → Bool) (l : List Char) : List (List Char) :=
  l.foldr
    (fun c acc =>
      if sep c then [] :: acc
      else match acc with
        | w :: ws => (c :: w) :: ws
        | [] => [[c]])
    [[]]

/-- The sentence-unit lists of `_find_overlap`'s fuzzy fallback: split the
trailing/leading 1500-char window on `[\n.?!]`, strip, keep units longer
than 20 characters. -/
def sentUnits (window : List Char) : List (List Char) :=
  ((splitAnyOf sentSep window).map pyStrip).filter (fun s => s.length > 20)

/-- The naive positional character-match score of the fuzzy fallback:
index-aligned equal characters over the longer unit's length. -/
def posSim (s1 s2 : List Char) : ℚ :=
  (((s1.zip s2).filter (fun p => p.1 = p.2)).length : ℚ) /
    (max s1.length s2.length : ℚ)

/-- `similarity > 0.7`, decided exactly by cross-multiplication:
`common / max(|s1|,|s2|) > 7/10 ⟺ 10·common > 7·max(|s1|,|s2|)` (see
`posSim_gt_iff`). -/
def posSimGt7 (s1 s2 : List Char) : Bool :=
  10 * ((s1.zip s2).filter (fun p => p.1 = p.2)).length > 7 * max s1.length s2.length

/-- The fuzzy double loop of `_find_overlap`: for each of the last 10 units of
the left window (in reverse) against each of the first 10 of the right window,
return `text2.find(s2)` for the first pair with both lengths > 30, score > 0.7
and a positive find position. -/
def fuzzyCut (text2 : List Char) (s1s s2s : List (List Char)) : Option Nat :=
  ((s1s.drop (s1s.length - 10)).reverse).findSome? (fun s1 =>
    (s2s.take 10).findSome? (fun s2 =>
      if s1.length > 30 ∧ s2.length > 30 ∧ posSimGt7 s1 s2 then
        match findSub text2 s2 with
        | some p => if p > 0 then some p else none
        | none => none
      else none))

/-- The exact-overlap search loop of `_find_overlap`: over
`k ∈ [min_overlap, min(len(end1), len(start2))]`, keep the last (largest) `k`
whose size-`k` suffix of the trailing window equals the size-`k` front of the
leading window; 0 when none matches. -/
def exactBest (text1 text2 : List Char) (minO maxO : Nat) : Nat :=
  (List.range' minO
    (min (text1.drop (text1.length - maxO)).length (text2.take maxO).length
      + 1 - minO)).foldl
    (fun b k =>
      if (text1.drop (text1.length - maxO)).drop
          ((text1.drop (text1.length - maxO)).length - k) =
        (text2.take maxO).take k then k else b)
    0

/-- `_find_overlap(text1, text2, min_overlap=50, max_overlap=800)`. -/
def findOverlap (text1 text2 : List Char)
    (minOverlap : Nat := 50) (maxOverlap : Nat := 800) : Nat :=
  if exactBest text1 text2 minOverlap maxOverlap = 0 then
    (fuzzyCut text2 (sentUnits (text1.drop (text1.length - 1500)))
      (sentUnits (text2.take 1500))).getD 0
  else exactBest text1 text2 minOverlap maxOverlap

/-- `_merge_two_chunks_algorithmic(chunk1, chunk2)`. -/
def mergeTwoChunks (c1 c2 : List Char) : List Char :=
  if findOverlap c1 c2 > 0 then c1 ++ '\n' :: c2.drop (findOverlap c1 c2)
  else c1 ++ '\n' :: c2

/-- `_call_gpt52_merge_chunks`: left-to-right pairwise accumulation (a single
chunk is returned unchanged). -/
def mergeChunks (chunks : List String) : String :=
  match chunks with
  | [] => ""
  | c :: rest => ⟨rest.foldl (fun m c2 => mergeTwoChunks m c2.data) c.data⟩

/-! ## medical_summary.py — dosage plausibility -/

/-- An exact decimal `num / den` (`den` a power of ten). Python's float literals
and parsed doses in the dosage check are all exact decimals, so this carries
them with no rounding, and comparisons cross-multiply in `ℕ` (see
`decValOf`). -/
structure Dec where
  num : ℕ
  den : ℕ
deriving Repr, DecidableEq

/-- The rational value of a `Dec`. -/
def decValOf (d : Dec) : ℚ := (d.num : ℚ) / (d.den : ℚ)

/-- `DOSAGE_RANGES`: lowercase drug key to (min, max) single-dose mg bounds.
Decimal bounds are written as `Dec` pairs: `1.25 = ⟨125, 100⟩`, etc. -/
def DOSAGE_RANGES : List (String × Dec × Dec) :=
  [("ramipril", ⟨125, 100⟩, ⟨10, 1⟩), ("tritace", ⟨125, 100⟩, ⟨10, 1⟩),
   ("bisoprolol", ⟨125, 100⟩, ⟨10, 1⟩), ("cardiloc", ⟨125, 100⟩, ⟨10, 1⟩),
   ("enalapril", ⟨25, 10⟩, ⟨40, 1⟩), ("losartan", ⟨25, 1⟩, ⟨100, 1⟩),
   ("valsartan", ⟨40, 1⟩, ⟨320, 1⟩), ("atorvastatin", ⟨10, 1⟩, ⟨80, 1⟩),
   ("lipitor", ⟨10, 1⟩, ⟨80, 1⟩), ("rosuvastatin", ⟨5, 1⟩, ⟨40, 1⟩),
   ("crestor", ⟨5, 1⟩, ⟨40, 1⟩), ("simvastatin", ⟨5, 1⟩, ⟨80, 1⟩),
   ("ezetimibe", ⟨10, 1⟩, ⟨10, 1⟩), ("ezetrol", ⟨10, 1⟩, ⟨10, 1⟩),
   ("spironolactone", ⟨125, 10⟩, ⟨200, 1⟩), ("aldactone", ⟨125, 10⟩, ⟨200, 1⟩),
   ("furosemide", ⟨20, 1⟩, ⟨600, 1⟩), ("aspirin", ⟨75, 1⟩, ⟨325, 1⟩),
   ("prasugrel", ⟨5, 1⟩, ⟨10, 1⟩), ("effient", ⟨5, 1⟩, ⟨10, 1⟩),
   ("clopidogrel", ⟨75, 1⟩, ⟨75, 1⟩), ("plavix", ⟨75, 1⟩, ⟨75, 1⟩),
   ("apixaban", ⟨25, 10⟩, ⟨5, 1⟩), ("eliquis", ⟨25, 10⟩, ⟨5, 1⟩),
   ("rivaroxaban", ⟨10, 1⟩, ⟨20, 1⟩), ("xarelto", ⟨10, 1⟩, ⟨20, 1⟩),
   ("metformin", ⟨500, 1⟩, ⟨2550, 1⟩), ("glucophage", ⟨500, 1⟩, ⟨2550, 1⟩),
   ("empagliflozin", ⟨10, 1⟩, ⟨25, 1⟩), ("jardiance", ⟨10, 1⟩, ⟨25, 1⟩),
   ("zopiclone", ⟨375, 100⟩, ⟨75, 10⟩), ("nocturno", ⟨375, 100⟩, ⟨75, 10⟩),
   ("escitalopram", ⟨5, 1⟩, ⟨20, 1⟩), ("cipralex", ⟨5, 1⟩, ⟨20, 1⟩),
   ("clonazepam", ⟨25, 100⟩, ⟨6, 1⟩), ("clonex", ⟨25, 100⟩, ⟨6, 1⟩),
   ("lorazepam", ⟨5, 10⟩, ⟨6, 1⟩), ("lorivan", ⟨5, 10⟩, ⟨6, 1⟩),
   ("omeprazole", ⟨10, 1⟩, ⟨40, 1⟩), ("esomeprazole", ⟨20, 1⟩, ⟨40, 1⟩),
   ("nexium", ⟨20, 1⟩, ⟨40, 1⟩), ("levothyroxine", ⟨125, 10⟩, ⟨300, 1⟩),
   ("euthyrox", ⟨125, 10⟩, ⟨300, 1⟩), ("eltroxin", ⟨125, 10⟩, ⟨300, 1⟩)]

/-- The mg-unit alternation `(?:mg|מ"ג|מג)` (IGNORECASE covers `mg`), tried in
pattern order; returns the remainder after the consumed unit. -/
def mgAlt : List Char → Option (List Char)
  | c1 :: c2 :: c3 :: rest =>
    if (c1 = 'm' ∨ c1 = 'M') ∧ (c2 = 'g' ∨ c2 = 'G') then some (c3 :: rest)
    else if c1 = 'מ' ∧ c2 = '"' ∧ c3 = 'ג' then some rest
    else if c1 = 'מ' ∧ c2 = 'ג' then some (c3 :: rest)
    else none
  | [c1, c2] =>
    if (c1 = 'm' ∨ c1 = 'M') ∧ (c2 = 'g' ∨ c2 = 'G') then some []
    else if c1 = 'מ' ∧ c2 = 'ג' then some []
    else none
  | _ => none

/-- A match of `(\w+[\w\-]*)\s+(\d+(?:\.\d+)?)\s*(?:mg|מ"ג|מג)` anchored at the
head of `l`, derived deterministically from the backtracking regex: group 1 must
be the maximal `[\w-]` run starting with a `\w` character (any shorter split
leaves a `[\w-]` character where `\s+` must match), `\s+`/`\d+` take their maximal
runs (giving back characters can never reach a digit or the unit letter), and the
optional fraction is tried greedily first. Returns (group1, group2, remainder). -/
def dosageMatchFrom (l : List Char) : Option (List Char × List Char × List Char) :=
  match l.head? with
  | none => none
  | some c0 =>
    if isWordChar c0 then
      let nameRun := l.takeWhile (fun c => isWordChar c || c = '-')
      let afterR := l.drop nameRun.length
      let wsRun := afterR.takeWhile pyIsSpace
      if wsRun.isEmpty then none
      else
        let afterW := afterR.drop wsRun.length
        let digs := afterW.takeWhile Char.isDigit
        if digs.isEmpty then none
        else
          let afterD := afterW.drop digs.length
          let fracTry : Option (List Char × List Char) :=
            match afterD with
            | '.' :: r2 =>
              let frac := r2.takeWhile Char.isDigit
              if frac.isEmpty then none
              else
                let afterF := r2.drop frac.length
                match mgAlt (afterF.drop (afterF.takeWhile pyIsSpace).length) with
                | some rem => some (digs ++ '.' :: frac, rem)
                | none => none
            | _ => none
          match fracTry with
          | some (num, rem) => some (nameRun, num, rem)
          | none =>
            match mgAlt (afterD.drop (afterD.takeWhile pyIsSpace).length) with
            | some rem => some (nameRun, digs, rem)
            | none => none
    else none

/-- `finditer` over the dosage pattern: scan left to right, jumping over each
match (non-overlapping), else advancing one character. Fuel bounds by length. -/
def dosageScan : Nat → List Char → List (List Char × List Char)
  | 0, _ => []
  | fuel + 1, l =>
    match l with
    | [] => []
    | _ :: rest =>
      match dosageMatchFrom l with
      | some (name, num, rem) => (name, num) :: dosageScan fuel rem
      | none => dosageScan fuel rest

/-- Numeric value of a digit run. -/
def natOfDigits (ds : List Char) : ℕ :=
  ds.foldl (fun a c => a * 10 + (c.toNat - '0'.toNat)) 0

/-- `float(match.group(2))` for the decimal literals the pattern produces, as
the exact decimal `int.frac = (int*10^|frac| + frac) / 10^|frac|`. -/
def parseDose (num : List Char) : Dec :=
  let intPart := num.takeWhile (· ≠ '.')
  let fracPart := num.drop (intPart.length + 1)
  ⟨natOfDigits intPart * 10 ^ fracPart.length + natOfDigits fracPart,
   10 ^ fracPart.length⟩

/-- Python `repr` of the table's numeric bounds (ints print bare; the float
entries all have exact short decimal forms with no trailing zeros the way they
are encoded in `DOSAGE_RANGES`). -/
def decRender (d : Dec) : String :=
  if d.den = 1 then toString d.num
  else toString (d.num / d.den) ++ "." ++
    (if d.den = 10 then toString (d.num % 10) else toString (d.num % 100))

/-- The flag condition of `_check_dosage_plausibility`:
`dosage < min_dose * 0.5 or dosage > max_dose * 1.5`, decided exactly by
cross-multiplication (see `dosageOutOfRange_iff` for the rational reading). -/
def dosageOutOfRange (dose mn mx : Dec) : Bool :=
  2 * dose.num * mn.den < mn.num * dose.den ∨
  2 * dose.num * mx.den > 3 * mx.num * dose.den

/-- `_check_dosage_plausibility(summary)`: the list of appended
`deterministic_dosage_warnings`. -/
def checkDosagePlausibility (summary : String) : List String :=
  (dosageScan summary.data.length summary.data).filterMap (fun m =>
    let drugName := lowerStr m.1
    match DOSAGE_RANGES.find? (fun e => e.1.data = drugName) with
    | some e =>
      if dosageOutOfRange (parseDose m.2) e.2.1 e.2.2 then
        some ((⟨m.1⟩ : String) ++ " " ++ (⟨m.2⟩ : String) ++ " mg — " ++
          "מינון חריג (טווח סטנדרטי: " ++ decRender e.2.1 ++ "-" ++ decRender e.2.2 ++
          " mg). ייתכן שגיאת תמלול.")
      else none
    | none => none)

/-! ## postprocess.py — Stage A: deterministic normalization -/

/-- `VALID_SPEAKERS` (a Python set; its members are mutually non-prefixing, so
the `startswith` scans below are order-independent). -/
def VALID_SPEAKERS : List (List Char) :=
  ["[רופא]".data, "[מטופל]".data, "[בן משפחה]".data]

/-- The `tag_fixes` mapping of `_normalize_speaker_tag`, in dict order. -/
def tagFixes : List (List Char × List Char) :=
  [("[קופא]".data, "[רופא]".data),
   ("[רופאה]".data, "[רופא]".data),
   ("[חולה]".data, "[מטופל]".data),
   ("[משפחה]".data, "[בן משפחה]".data)]

/-- `' '.join(line.split())`. -/
def collapseWs (l : List Char) : List Char :=
  joinWith ' ' (pyWords l)

/-- `_normalize_speaker_tag(line)`. -/
def normalizeSpeakerTag (l : List Char) : List Char :=
  match VALID_SPEAKERS.find? (fun t => t.isPrefixOf l) with
  | some tag =>
    let rest := pyLstrip (l.drop tag.length)
    let rest' : List Char :=
      match rest with
      | ':' :: r => ':' :: ' ' :: pyLstrip r
      | _ => ':' :: ' ' :: rest
    tag ++ rest'
  | none =>
    match tagFixes.find? (fun p => p.1.isPrefixOf l) with
    | some p => p.2 ++ l.drop p.1.length
    | none => l

/-- `re.sub(r':\s+', ': ', line)`: every colon followed by a (maximal) whitespace
run becomes colon-space. The right fold sees, at each `:`, exactly the original
whitespace run ahead (later rewrites never put whitespace at the head of the
processed suffix), so this coincides with the left-to-right non-overlapping
regex scan. -/
def subColonWs (l : List Char) : List Char :=
  l.foldr
    (fun c out =>
      if c = ':' ∧ (out.head?.elim false pyIsSpace : Bool) = true
      then ':' :: ' ' :: out.dropWhile pyIsSpace
      else c :: out)
    []

/-- `re.sub(r'\?+', '?', line)`: collapse question-mark runs. -/
def collapseQ (l : List Char) : List Char :=
  l.foldr
    (fun c out =>
      if c = '?' ∧ out.head? = some '?' then out else c :: out)
    []

/-- `_normalize_punctuation(line)`. -/
def normalizePunct (l : List Char) : List Char :=
  pyRstrip (collapseQ (subColonWs l))

/-- Maximal-run view of a string: alternating word-character runs and non-word
gaps. A `\b` word boundary is exactly a token boundary adjacent to a word run,
so the `\b`-delimited substitutions of `_normalize_medical_terms` act on this
view; `detok` restores the string. -/
inductive Tok where
  | word (cs : List Char)
  | gap (cs : List Char)
deriving Repr, DecidableEq

def tokenize (l : List Char) : List Tok :=
  l.foldr
    (fun c toks =>
      if isWordChar c then
        match toks with
        | Tok.word w :: rest => Tok.word (c :: w) :: rest
        | _ => Tok.word [c] :: toks
      else
        match toks with
        | Tok.gap g :: rest => Tok.gap (c :: g) :: rest
        | _ => Tok.gap [c] :: toks)
    []

def detok (ts : List Tok) : List Char :=
  ts.flatMap (fun t => match t with | Tok.word w => w | Tok.gap g => g)

/-- `re.sub(r'\bPET\s+CT\b', 'PET-CT', line)` on the run view: a match is a word
run equal to `PET`, a non-word gap that `\s+` must consume entirely (so all
whitespace, nonempty — the gap runs up to the next word character), then a word
run equal to `CT`. Case-sensitive. Scans left-to-right, non-overlapping. -/
def petSubTok : List Tok → List Tok
  | Tok.word w :: Tok.gap g :: Tok.word w2 :: rest =>
    if w = "PET".data ∧ g.all pyIsSpace ∧ w2 = "CT".data then
      Tok.word "PET".data :: Tok.gap ['-'] :: Tok.word "CT".data :: petSubTok rest
    else Tok.word w :: petSubTok (Tok.gap g :: Tok.word w2 :: rest)
  | t :: rest => t :: petSubTok rest
  | [] => []

/-- `re.sub(r'\bP\b', R, line, flags=IGNORECASE)` for an all-word-character
pattern `P`: a match is exactly a maximal word run equal to `P` up to case. -/
def ciWordSubTok (pat rep : List Char) (ts : List Tok) : List Tok :=
  ts.map (fun t =>
    match t with
    | Tok.word w => if lowerStr w = pat then Tok.word rep else t
    | Tok.gap _ => t)

/-- `re.sub(r'\bpet-ct\b', 'PET-CT', line, flags=IGNORECASE)`: the hyphen is a
literal, so a match is a word run `pet` (ci), a gap of exactly `-`, and a word
run `ct` (ci). -/
def ciPetCtSubTok : List Tok → List Tok
  | Tok.word w :: Tok.gap g :: Tok.word w2 :: rest =>
    if lowerStr w = "pet".data ∧ g = ['-'] ∧ lowerStr w2 = "ct".data then
      Tok.word "PET".data :: Tok.gap ['-'] :: Tok.word "CT".data :: ciPetCtSubTok rest
    else Tok.word w :: ciPetCtSubTok (Tok.gap g :: Tok.word w2 :: rest)
  | t :: rest => t :: ciPetCtSubTok rest
  | [] => []

/-- `_normalize_medical_terms(line)`: the `PET CT` hyphenation followed by the
`term_map` passes in dict order (`pet-ct`, `tee`, `dvt`, `igg4`). Each token
transformation preserves the alternating-run shape, so composing them on the
run view composes the string substitutions. -/
def normalizeMedicalTerms (l : List Char) : List Char :=
  detok (ciWordSubTok "igg4".data "IgG4".data
    (ciWordSubTok "dvt".data "DVT".data
      (ciWordSubTok "tee".data "TEE".data
        (ciPetCtSubTok (petSubTok (tokenize l))))))

/-- The per-line body of `_stage_a_normalize`. -/
def stageALine (l : List Char) : List Char :=
  normalizeMedicalTerms (normalizePunct (normalizeSpeakerTag (collapseWs l)))

/-- `_stage_a_normalize(text)`: blank lines dropped, each kept line normalized. -/
def stageA (text : String) : String :=
  ⟨joinWith '\n'
    (((text.data.splitOn '\n').filter (fun l => ¬ (pyStrip l).isEmpty)).map
      stageALine)⟩

/-! ## postprocess.py — Stage B: dictionary spelling fixes -/

/-- `SPELLING_FIXES`, in dict (insertion) order. -/
def SPELLING_FIXES : List (String × String) :=
  [("עזות", "הזעות"), ("עקומול", "אקמול"), ("לעקומול", "לאקמול"),
   ("תחילות", "בחילות"), ("הרמונית", "ערמונית"), ("ההרמונית", "הערמונית"),
   ("מייחה", "ליחה"), ("מערך העצם", "מח העצם"), ("במערך העצם", "במח העצם"),
   ("ממערך העצם", "ממח העצם"), ("מהעצם", "ממח העצם"), ("פרוטיק", "פרטי"),
   ("בפרוטיק", "בפרטי"), ("העתק עדבק", "העתק הדבק"), ("כהי מים", "כולי מים"),
   ("כואי מים", "כולי מים"), ("הסמינים", "הסימפטומים"), ("במקריב", "בערב"),
   ("יציאה תקינות", "יציאות תקינות"), ("בליסה", "בלעיסה"),
   ("בכום הלב", "בקרום הלב"), ("רגישה יותר בנוח", "מרגישה יותר בנוח"),
   ("בנועל", "בנוהל"), ("קרדיולוק", "קרדילול"), ("חומס", "חום"),
   ("המסתרמות", "המסתמיות"), ("שאירו", "שלנו"), ("לדיין", "לדון"),
   ("חטפם", "התקף"), ("אולטרסאונד", "Ultrasound"), ("מולטאק", "Multaq")]

/-- `PROTECTED_MEDICAL_TERMS` (a set; only membership is used). -/
def PROTECTED_MEDICAL_TERMS : List String :=
  ["DVT", "PE", "CT", "PET-CT", "PET CT", "TEE", "MRI", "ECG", "EKG",
   "IgG4", "IGG4", "Ultrasound", "Multaq", "Euthyrox", "Lipitor",
   "אנדוקרדיטיס", "סרקואיד", "לימפומה", "גרנולומות", "ביופסיה",
   "סטרואידים", "אימורן", "דיגוקסין", "פרוקור", "קרדילול"]

/-- Python `str.replace(pat, rep)`: all non-overlapping leftmost occurrences.
Fuel bounds the scan by the input length (each step consumes ≥ 1 character for
the nonempty patterns used here). -/
def replaceAll : Nat → List Char → List Char → List Char → List Char
  | 0, s, _, _ => s
  | fuel + 1, s, pat, rep =>
    match s with
    | [] => []
    | c :: rest =>
      if pat.isPrefixOf s ∧ ¬ pat.isEmpty then
        rep ++ replaceAll fuel (s.drop pat.length) pat rep
      else c :: replaceAll fuel rest pat rep

/-- `_is_inside_medical_term(line, word)`. -/
def insideMedicalTerm (line word : List Char) : Bool :=
  PROTECTED_MEDICAL_TERMS.any (fun t =>
    containsSub t.data word ∧ containsSub line t.data)

/-- Stage B on one (1-based numbered) line, with the applied replacements. -/
def stageBLine (i : Nat) (l : List Char) :
    List Char × List (String × String × Nat) :=
  SPELLING_FIXES.foldl
    (fun st p =>
      if containsSub st.1 p.1.data ∧ ¬ insideMedicalTerm st.1 p.1.data then
        (replaceAll st.1.length st.1 p.1.data p.2.data, st.2 ++ [(p.1, p.2, i + 1)])
      else st)
    (l, [])

/-- `_stage_b_spelling(text)` with the report's replacement list. -/
def stageBFull (text : String) : String × List (String × String × Nat) :=
  let pieces := (text.data.splitOn '\n').enum.map (fun p => stageBLine p.1 p.2)
  (⟨joinWith '\n' (pieces.map (·.1))⟩, pieces.flatMap (·.2))

def stageB (text : String) : String := (stageBFull text).1

/-! ## postprocess.py — Stage C: deduplication -/

/-- Hebrew final-letter folding used by `_get_fingerprint`. -/
def foldFinalChar (c : Char) : Char :=
  if c = 'ך' then 'כ' else if c = 'ם' then 'מ' else if c = 'ן' then 'נ'
  else if c = 'ף' then 'פ' else if c = 'ץ' then 'צ' else c

/-- `_get_fingerprint(line)`: empty for blank lines; otherwise strip one leading
valid speaker tag, lowercase, drop `[^\w\s]` characters, collapse whitespace,
fold final letters. -/
def fingerprint (l : List Char) : List Char :=
  if (pyStrip l).isEmpty then []
  else
    let l1 := match VALID_SPEAKERS.find? (fun t => t.isPrefixOf l) with
      | some t => l.drop t.length
      | none => l
    let l2 := (lowerStr l1).filter (fun c => isWordChar c || pyIsSpace c)
    (joinWith ' ' (pyWords l2)).map foldFinalChar

/-- Pass 1 of `_stage_c_deduplicate`: drop a line whose (nonempty) fingerprint
equals the previous kept line's fingerprint; returns the kept lines and the
1-based indices of the dropped ones. -/
def pass1Step (st : List (List Char) × List Nat × List Char)
    (p : Nat × List Char) : List (List Char) × List Nat × List Char :=
  let fp := fingerprint p.2
  if fp = st.2.2 ∧ ¬ fp.isEmpty then (st.1, st.2.1 ++ [p.1 + 1], st.2.2)
  else (st.1 ++ [p.2], st.2.1, fp)

def dedupPass1 (lines : List (List Char)) : List (List Char) × List Nat :=
  let st := lines.enum.foldl pass1Step ([], [], [])
  (st.1, st.2.1)

/-- The up-to-4-line fingerprint block anchored at `start` (blank lines skipped),
as in `_remove_near_duplicate_blocks`. -/
def blockFps (ls : List (List Char)) (start : Nat) : List (List Char) :=
  ((ls.drop start).take 4).filterMap (fun l =>
    if (pyStrip l).isEmpty then none else some (fingerprint l))

/-- The main loop of `_remove_near_duplicate_blocks`: drop the current line when
its block text is > 0.85-similar (SequenceMatcher ratio, default autojunk) to a
block anchored at one of the last 20 kept positions. Returns kept lines and the
1-based indices of dropped ones. -/
def pass2Go : Nat → Nat → List (List Char) → List (List Char) × List Nat →
    List (List Char) × List Nat
  | 0, _, _, acc => acc
  | fuel + 1, i, lines, acc =>
    if i < lines.length then
      let curBlock := blockFps lines i
      if curBlock.isEmpty then
        pass2Go fuel (i + 1) lines (acc.1 ++ [lines.getD i []], acc.2)
      else
        let blockText := joinWith ' ' curBlock
        let n := acc.1.length
        let isDup := (List.range' (n - 20) (n - (n - 20))).any (fun k =>
          let cmpText := joinWith ' ' (blockFps acc.1 k)
          ¬ blockText.isEmpty ∧ ¬ cmpText.isEmpty ∧ ratioGt85 blockText cmpText)
        if isDup then pass2Go fuel (i + 1) lines (acc.1, acc.2 ++ [i + 1])
        else pass2Go fuel (i + 1) lines (acc.1 ++ [lines.getD i []], acc.2)
    else acc

/-- `_remove_near_duplicate_blocks(lines)` (identity below 4 lines). -/
def dedupPass2 (lines : List (List Char)) : List (List Char) × List Nat :=
  if lines.length < 4 then (lines, [])
  else pass2Go lines.length 0 lines ([], [])

/-- `_stage_c_deduplicate(text)` with the dropped 1-based line numbers of both
passes (pass 2 numbers are relative to the pass-1 output, as in the source). -/
def stageCFull (text : String) : String × List Nat :=
  let p1 := dedupPass1 (text.data.splitOn '\n')
  let p2 := dedupPass2 p1.1
  (⟨joinWith '\n' p2.1⟩, p1.2 ++ p2.2)

def stageC (text : String) : String := (stageCFull text).1

/-! ## postprocess.py — Stage D, extraction helpers, Stage E, process -/

/-- The injected rewrite capability of the Constrained Rewriter Gate: the chat
completion call on the constructed prompt, returning the rewritten text or
raising (`Except.error`). -/
def RewriteFn := String → Except String String

/-- `PostProcessReport`. String-set fields are carried as lists with set
(membership) semantics; the free-form warning strings elide Python's
brace/percent repr formatting of embedded collections, which no consumer
inspects. -/
structure Report where
  stage_a_changes : List String := []
  stage_b_replacements : List (String × String × Nat) := []
  stage_c_duplicates_removed : Nat := 0
  stage_c_duplicate_lines : List Nat := []
  stage_d_corrections : List (Nat × String) := []
  stage_e_warnings : List String := []
  stage_e_numbers_before : List String := []
  stage_e_numbers_after : List String := []
  stage_e_medical_terms_before : List String := []
  stage_e_medical_terms_after : List String := []
  validation_passed : Bool := true
deriving Repr, DecidableEq

/-- `_stage_d_semantic_fix`: call the injected rewrite on the text; fall back to
the input when the client is missing, the result is shorter than 90% of the
input, or the call raises — recording the rejection in
`stage_d_corrections`. -/
def stageD (client : Option RewriteFn) (text : String) (rep : Report) :
    String × Report :=
  match client with
  | none => (text, rep)
  | some f =>
    match f text with
    | Except.ok result =>
      -- `len(result) < len(text) * 0.9`, exactly: `10·len(result) < 9·len(text)`
      if 10 * result.length < 9 * text.length then
        (text, { rep with stage_d_corrections :=
          rep.stage_d_corrections ++ [(0, "LLM result too short, keeping original")] })
      else (result, rep)
    | Except.error e =>
      (text, { rep with stage_d_corrections :=
        rep.stage_d_corrections ++ [(0, "LLM error: " ++ e)] })

/-- A `\b` assertion right after a match, given the match's last character and
the remaining input. -/
def endBoundary (lastC : Char) (rest : List Char) : Bool :=
  if isWordChar lastC then
    match rest.head? with
    | some c => ¬ isWordChar c
    | none => true
  else
    match rest.head? with
    | some c => isWordChar c
    | none => false

/-- One anchored match of `\d+(?:\.\d+)?%?\b` (the leading `\b` is checked by
the scanner). The candidates are tried in the regex's backtracking order —
fraction and `%` greedy first — and giving back digit-run characters can never
produce a boundary, so only these four candidates arise. -/
def numMatchFrom (l : List Char) : Option (List Char × List Char) :=
  let digs := l.takeWhile Char.isDigit
  if digs.isEmpty then none
  else
    let afterD := l.drop digs.length
    let fracCands : List (List Char × List Char) :=
      match afterD with
      | '.' :: r2 =>
        let frac := r2.takeWhile Char.isDigit
        if frac.isEmpty then []
        else
          let base := digs ++ '.' :: frac
          let afterF := r2.drop frac.length
          (match afterF with
           | '%' :: r3 => [(base ++ ['%'], r3)]
           | _ => []) ++ [(base, afterF)]
      | _ => []
    let plainCands : List (List Char × List Char) :=
      (match afterD with
       | '%' :: r3 => [(digs ++ ['%'], r3)]
       | _ => []) ++ [(digs, afterD)]
    (fracCands ++ plainCands).findSome? (fun cand =>
      if endBoundary (cand.1.getLastD ' ') cand.2 then some cand else none)

/-- `re.findall(r'\b\d+(?:\.\d+)?%?\b', text)`: scan with a running
previous-character word flag for the leading `\b`. -/
def numScan : Nat → Bool → List Char → List (List Char)
  | 0, _, _ => []
  | fuel + 1, prevW, l =>
    match l with
    | [] => []
    | c :: rest =>
      if c.isDigit ∧ ¬ prevW then
        match numMatchFrom l with
        | some (m, rem) => m :: numScan fuel (isWordChar (m.getLastD ' ')) rem
        | none => numScan fuel (isWordChar c) rest
      else numScan fuel (isWordChar c) rest

/-- `_extract_numbers(text)`. -/
def extractNumbers (text : String) : List String :=
  (numScan text.data.length false text.data).map (fun m => (⟨m⟩ : String))

/-- The character class `[A-Za-z0-9-]` of the English-term pattern. -/
def termClass (c : Char) : Bool :=
  c.isUpper || c.isLower || c.isDigit || c = '-'

/-- One anchored match of `[A-Z][A-Za-z0-9-]{1,}\b`: the tail run is maximal
and the trailing `\b` backtracks over it (a run character can be `-`, whose
boundary needs a following word character), so the longest boundary-satisfying
prefix of length ≥ 1 wins. -/
def termMatchFrom (l : List Char) : Option (List Char × List Char) :=
  match l with
  | [] => none
  | c0 :: r =>
    let run := r.takeWhile termClass
    if run.isEmpty then none
    else
      ((List.range run.length).map (fun d => run.length - d)).findSome? (fun k =>
        let body := run.take k
        let rest := r.drop k
        if endBoundary (body.getLastD c0) rest then some (c0 :: body, rest)
        else none)

/-- `re.findall(r'\b[A-Z][A-Za-z0-9-]{1,}\b', text)`. -/
def termScan : Nat → Bool → List Char → List (List Char)
  | 0, _, _ => []
  | fuel + 1, prevW, l =>
    match l with
    | [] => []
    | c :: rest =>
      if c.isUpper ∧ ¬ prevW then
        match termMatchFrom l with
        | some (m, rem) => m :: termScan fuel (isWordChar (m.getLastD ' ')) rem
        | none => termScan fuel (isWordChar c) rest
      else termScan fuel (isWordChar c) rest

/-- The fixed Hebrew medical vocabulary of `_extract_medical_terms`. -/
def hebrewMedical : List String :=
  ["אנדוקרדיטיס", "סרקואיד", "לימפומה", "גרנולומות", "ביופסיה",
   "סטרואידים", "אימורן", "דיגוקסין", "פרוקור", "קרדילול",
   "טמפורלית", "המטולוגים", "ראומטולוגים", "קרדיולוגים",
   "מסתמים", "פירפור", "אשפוז"]

/-- `_extract_medical_terms(text)`: the English-pattern matches plus the Hebrew
vocabulary entries occurring as substrings, as a deduplicated list (the source
returns a set; only membership is consumed). -/
def extractMedicalTerms (text : String) : List String :=
  (((termScan text.data.length false text.data).map (fun m => (⟨m⟩ : String))) ++
    hebrewMedical.filter (fun t => containsSub text.data t.data)).dedup

def strLower (s : String) : String := ⟨lowerStr s.data⟩

/-- The validating prefix of `_stage_e_validate`: record the after-extractions
and flag missing numbers and missing medical terms (the only writes to
`validation_passed`). -/
def stageEValidate (text : String) (rep : Report) : Report :=
  let numbersAfter := extractNumbers text
  let termsAfter := extractMedicalTerms text
  let rep := { rep with stage_e_numbers_after := numbersAfter,
                        stage_e_medical_terms_after := termsAfter }
  let missingN := rep.stage_e_numbers_before.dedup.filter
    (fun n => ¬ numbersAfter.contains n)
  let rep :=
    if ¬ missingN.isEmpty then
      { rep with
        stage_e_warnings := rep.stage_e_warnings ++
          ["Numbers changed/missing: " ++ String.intercalate ", " missingN],
        validation_passed := false }
    else rep
  let missingT := rep.stage_e_medical_terms_before.filter
    (fun t => ¬ termsAfter.contains t)
  if ¬ missingT.isEmpty then
    { rep with
      stage_e_warnings := rep.stage_e_warnings ++
        ["Medical terms missing: " ++ String.intercalate ", " missingT],
      validation_passed := false }
  else rep

/-- The advisory new-terms warning of `_stage_e_validate` (never touches
`validation_passed`). -/
def stageEAdvisory (text : String) (rep : Report) : Report :=
  let termsAfter := extractMedicalTerms text
  let newTerms := termsAfter.filter
    (fun t => ¬ rep.stage_e_medical_terms_before.contains t)
  let lowerBefore := rep.stage_e_medical_terms_before.map strLower
  let realNew := (newTerms.filter (fun t => ¬ lowerBefore.contains (strLower t))).filter
    (fun t => ¬ (SPELLING_FIXES.map (·.2)).contains t)
  if ¬ realNew.isEmpty then
    { rep with
      stage_e_warnings := rep.stage_e_warnings ++
        ["New medical terms introduced (possible hallucination): " ++
          String.intercalate ", " realNew] }
  else rep

/-- The speaker-statistics warnings of `_stage_e_validate` (never touch
`validation_passed`). -/
def stageESpeakers (text : String) (rep : Report) : Report :=
  let lines := (text.data.splitOn '\n').filter (fun l => ¬ (pyStrip l).isEmpty)
  let tagOf := fun (l : List Char) => VALID_SPEAKERS.find? (fun t => t.isPrefixOf l)
  let noSpeaker := (lines.filter (fun l => (tagOf l).isNone)).length
  let rep :=
    if noSpeaker > 5 then
      { rep with stage_e_warnings := rep.stage_e_warnings ++
        [toString noSpeaker ++ " lines without speaker tags"] }
    else rep
  let counts := VALID_SPEAKERS.map (fun t =>
    (t, (lines.filter (fun l => tagOf l = some t)).length))
  let total : ℕ := (counts.map (·.2)).sum
  if total > 0 then
    counts.foldl
      (fun r p =>
        -- `count / total > 0.9`, exactly: `10·count > 9·total`
        if 10 * p.2 > 9 * total then
          { r with stage_e_warnings := r.stage_e_warnings ++
            ["Speaker imbalance: " ++ (⟨p.1⟩ : String) ++ " has " ++
              toString p.2 ++ "/" ++ toString total ++ " lines"] }
        else r)
      rep
  else rep

/-- `_stage_e_validate(text)`: returns the text unchanged and the updated
report. -/
def stageE (text : String) (rep : Report) : String × Report :=
  (text, stageESpeakers text (stageEAdvisory text (stageEValidate text rep)))

/-- The per-line log entries of Stage A (`"Line {i+1}: normalized"` for every
kept line the stage changed). -/
def stageAChanges (text : String) : List String :=
  (text.data.splitOn '\n').enum.filterMap (fun p =>
    if (pyStrip p.2).isEmpty then none
    else if stageALine p.2 ≠ p.2 then
      some ("Line " ++ toString (p.1 + 1) ++ ": normalized")
    else none)

/-- `PostProcessor.process(text, use_llm)`: the full pipeline with a fresh
report; stage D runs only under `use_llm` (and is itself a no-op without a
client). -/
def stageABC (text : String) : String × Report :=
  let rep0 : Report :=
    { stage_e_numbers_before := extractNumbers text,
      stage_e_medical_terms_before := extractMedicalTerms text }
  let tA := stageA text
  let repA := { rep0 with stage_a_changes := stageAChanges text }
  let pB := stageBFull tA
  let repB := { repA with stage_b_replacements := pB.2 }
  let pC := stageCFull pB.1
  let repC := { repB with stage_c_duplicates_removed := pC.2.length,
                          stage_c_duplicate_lines := pC.2 }
  (pC.1, repC)

def process (text : String) (useLlm : Bool) (client : Option RewriteFn) :
    String × Report :=
  let pC := stageABC text
  let pD := if useLlm then stageD client pC.1 pC.2 else pC
  stageE pD.1 pD.2

/-! ## Concrete inputs used by counterexamples and witnesses -/

/-- Shared 40-character overlap for the merge counterexample; its sentence
units are all ≤ 20 characters so the fuzzy fallback finds no unit to compare. -/
def c3ov : String := "cdefghijk.lmnopqrst.uvwxyzabc.defghijkl."

def c3left : String := "block one.block two." ++ c3ov

def c3right : String := c3ov ++ "next part.more data."

def c3wLeft : String := ⟨List.replicate 30 'A' ++ List.replicate 60 'x'⟩

def c3wRight : String := ⟨List.replicate 60 'x' ++ List.replicate 30 'B'⟩

/-- A long shared sentence (59 chars) for the fuzzy-fallback witness. -/
def c9sent : String := "this is a long shared sentence with many characters inside"

def c9left : String := "aa. " ++ c9sent ++ "."

def c9right : String := "bb. " ++ c9sent ++ ". more stuff goes afterwards here"

/-- STT stream whose words overlap in time (non-decreasing offsets, non-negative
durations, but the first word's end passes the second word's start). The words
`#` and `$` lie outside `_normalize_word`'s stripped character class, so they
survive normalization and are matched positionally. -/
def c4stt : List SttWord := [⟨"#", 0, 1000⟩, ⟨"$", 100, 50⟩]

def c4wstt : List SttWord := [⟨"a", 0, 100⟩, ⟨"b", 200, 100⟩]

def c7text : String := "qq\nrr\nabcdefghij\nabcdefghix"

def c7wtext : String := "line a\nline a\nline a\nx\ny\nz"

/-! ## Verification-layer notions used in theorem statements and invariants -/

/-- Timestamp accessors defaulting missing values to 0 (outputs of the main
alignment path are total, see the C10 theorem). -/
def startD (w : AnnWord) : ℕ := w.start_ms.getD 0

def endD (w : AnnWord) : ℕ := w.end_ms.getD 0

/-- Anchor-chain invariant for a pre-interpolation annotated list: scanning left
to right, every timestamped entry starts no earlier than `le`, and its end
bounds the anchors after it. -/
def AnchChain : ℕ → List AnnWord → Prop
  | _, [] => True
  | le, w :: rest =>
    if w.start_ms.isSome then le ≤ startD w ∧ AnchChain (endD w) rest
    else AnchChain le rest

/-- Two matching blocks in separated order (the first ends before the second
begins, in both sequences). -/
def BlockOrd (m m' : ℕ × ℕ × ℕ) : Prop :=
  m.1 + m.2.2 ≤ m'.1 ∧ m.2.1 + m.2.2 ≤ m'.2.1

/-- A matching block inside the `la × lb` rectangle. -/
def BlockIn (la lb : ℕ) (m : ℕ × ℕ × ℕ) : Prop :=
  m.1 + m.2.2 ≤ la ∧ m.2.1 + m.2.2 ≤ lb

/-- Bounds invariant for a `find_longest_match` candidate inside
`[alo, ahi) × [blo, bhi)`; a zero-size result sits at the interval origin. -/
def BestInv (alo ahi blo bhi : ℕ) (m : ℕ × ℕ × ℕ) : Prop :=
  alo ≤ m.1 ∧ blo ≤ m.2.1 ∧ m.1 + m.2.2 ≤ ahi ∧ m.2.1 + m.2.2 ≤ bhi ∧
    (m.2.2 = 0 → m.1 = alo ∧ m.2.1 = blo)

/-- Post-interpolation chain invariant: each entry starts no earlier than the
running bound, which advances to the entry's end. -/
def ChainFrom : ℕ → List AnnWord → Prop
  | _, [] => True
  | le, w :: rest => le ≤ startD w ∧ ChainFrom (endD w) rest

/-- The pre-interpolation annotated list of the main `align_timestamps` path
(the enum-map over the block lookup), named for reuse in proofs. -/
def annotateRaw (stt : List SttWord) (t : String) : List AnnWord :=
  (stripSpeakerLabels t).1.enum.map (fun p =>
    match blockLookup (matchingBlocks ((stripSpeakerLabels t).1.map normalizeWord)
        (stt.map (fun w => normalizeWord w.word)) false) p.1 with
    | some j =>
      { word := p.2, start_ms := some ((stt.getD j default).offset_ms),
        end_ms := some ((stt.getD j default).offset_ms +
          (stt.getD j default).duration_ms),
        speaker := none, is_interpolated := false, line_index := 0 }
    | none =>
      { word := p.2, start_ms := none, end_ms := none, speaker := none,
        is_interpolated := true, line_index := 0 })

/-- All whitespace characters are plain blanks. -/
def Blank1 (x : List Char) : Prop := ∀ c ∈ x, pyIsSpace c = true → c = ' '

/-- No two adjacent blanks. -/
def NoDbl (x : List Char) : Prop :=
  List.Chain' (fun a b => ¬ (a = ' ' ∧ b = ' ')) x

/-- No two adjacent question marks. -/
def NoQQ (x : List Char) : Prop :=
  List.Chain' (fun a b => ¬ (a = '?' ∧ b = '?')) x

/-- The first character, when present, is not whitespace. -/
def headNS (x : List Char) : Prop :=
  ∀ c, x.head? = some c → pyIsSpace c = false

/-- The last character, when present, is not whitespace. -/
def lastNS (x : List Char) : Prop :=
  ∀ c, x.getLast? = some c → pyIsSpace c = false

/-- Whitespace normal form: only single internal blanks. -/
def WS4 (x : List Char) : Prop := Blank1 x ∧ NoDbl x ∧ headNS x ∧ lastNS x

/-- Nonempty whitespace-free word pieces. -/
def WordsOK (ws : List (List Char)) : Prop :=
  ∀ w ∈ ws, w ≠ [] ∧ ∀ c ∈ w, pyIsSpace c = false

end MedTrans

namespace MedTrans

/-! # Theorems -/

/-- C1: Rewrite-gate fallback law — for every input text and injected rewrite
callback, if the callback raises or returns a result shorter than 90% of the
input's character length, then `_stage_d_semantic_fix` returns the input text
exactly and records the rejection in `stage_d_corrections` instead of
propagating an error. -/
theorem rewrite_gate_fallback (text : String) (f : String → Except String String)
    (rep : Report)
    (h : (∃ e, f text = Except.error e) ∨
         (∃ r, f text = Except.ok r ∧ 10 * r.length < 9 * text.length)) :
    (stageD (some f) text rep).1 = text ∧
    (stageD (some f) text rep).2.stage_d_corrections.length =
      rep.stage_d_corrections.length + 1 := by
  rcases h with ⟨e, he⟩ | ⟨r, hr, hlen⟩
  · simp [stageD, he]
  · simp [stageD, hr, if_pos hlen]

/-- Witness for C1 at a concrete short-result callback. -/
theorem rewrite_gate_fallback_witness :
    ((∃ e, (fun (_ : String) => (Except.ok "" : Except String String)) "0123456789" =
        Except.error e) ∨
     (∃ r, (fun (_ : String) => (Except.ok "" : Except String String)) "0123456789" =
        Except.ok r ∧ 10 * r.length < 9 * ("0123456789" : String).length)) ∧
    (stageD (some (fun _ => Except.ok "")) "0123456789" {}).1 = "0123456789" ∧
    (stageD (some (fun _ => Except.ok "")) "0123456789" {}).2.stage_d_corrections.length =
      (({} : Report)).stage_d_corrections.length + 1 := by
  refine ⟨Or.inr ⟨"", rfl, by decide⟩, ?_⟩
  exact rewrite_gate_fallback "0123456789" (fun _ => Except.ok "") {}
    (Or.inr ⟨"", rfl, by decide⟩)

/-- The integer flag test of the dosage check is exactly the source's
`dosage < min_dose * 0.5 or dosage > max_dose * 1.5` over the decimal values. -/
theorem dosageOutOfRange_iff (dose mn mx : Dec) (hd : 0 < dose.den)
    (hmn : 0 < mn.den) (hmx : 0 < mx.den) :
    dosageOutOfRange dose mn mx = true ↔
      (decValOf dose < decValOf mn * (1 / 2) ∨
        decValOf mx * (3 / 2) < decValOf dose) := by
  have hd' : (0 : ℚ) < dose.den := by exact_mod_cast hd
  have hmn' : (0 : ℚ) < mn.den := by exact_mod_cast hmn
  have hmx' : (0 : ℚ) < mx.den := by exact_mod_cast hmx
  have e1 : (2 * dose.num * mn.den < mn.num * dose.den) ↔
      ((dose.num : ℚ) / dose.den < (mn.num : ℚ) / mn.den * (1 / 2)) := by
    rw [show (mn.num : ℚ) / mn.den * (1 / 2) = (mn.num : ℚ) / (2 * mn.den) by ring]
    rw [div_lt_div_iff₀ hd' (by positivity)]
    rw [show (dose.num : ℚ) * (2 * mn.den) = ((2 * dose.num * mn.den : ℕ) : ℚ) by
      push_cast; ring]
    rw [show (mn.num : ℚ) * dose.den = ((mn.num * dose.den : ℕ) : ℚ) by
      push_cast; ring]
    exact Nat.cast_lt.symm
  have e2 : (3 * mx.num * dose.den < 2 * dose.num * mx.den) ↔
      ((mx.num : ℚ) / mx.den * (3 / 2) < (dose.num : ℚ) / dose.den) := by
    rw [show (mx.num : ℚ) / mx.den * (3 / 2) =
        (3 * (mx.num : ℚ)) / (2 * mx.den) by ring]
    rw [div_lt_div_iff₀ (by positivity) hd']
    rw [show 3 * (mx.num : ℚ) * dose.den = ((3 * mx.num * dose.den : ℕ) : ℚ) by
      push_cast; ring]
    rw [show (dose.num : ℚ) * (2 * mx.den) = ((2 * dose.num * mx.den : ℕ) : ℚ) by
      push_cast; ring]
    exact Nat.cast_lt.symm
  simp only [dosageOutOfRange, decValOf, decide_eq_true_eq, gt_iff_lt]
  exact or_congr e1 e2

/-- C8: Dosage plausibility boundary — the flag condition of
`_check_dosage_plausibility` holds exactly when the dose is below half the
range minimum or above 1.5 times the range maximum; for Ramipril (range
1.25–10 mg): 10 mg and 15 mg produce no warning, 16 mg produces one. -/
theorem dosage_boundary :
    (∀ dose mn mx : Dec, 0 < dose.den → 0 < mn.den → 0 < mx.den →
      (dosageOutOfRange dose mn mx = true ↔
        (decValOf dose < decValOf mn * (1 / 2) ∨
          decValOf mx * (3 / 2) < decValOf dose))) ∧
    DOSAGE_RANGES.find? (fun e => e.1 = "ramipril") =
      some ("ramipril", ⟨125, 100⟩, ⟨10, 1⟩) ∧
    checkDosagePlausibility "Ramipril 10 mg" = [] ∧
    checkDosagePlausibility "Ramipril 15 mg" = [] ∧
    (checkDosagePlausibility "Ramipril 16 mg").length = 1 := by
  exact ⟨dosageOutOfRange_iff, by decide, by decide, by decide, by decide⟩

/-- A fold that overwrites its accumulator at every index satisfying `p` ends at
the last satisfying index; over a `<`-sorted list whose satisfying indices are
all `≤ M` with `M` present and satisfying, it ends at `M`. -/
theorem foldl_pick_eq {p : ℕ → Prop} [DecidablePred p] (M : ℕ) :
    ∀ (ks : List ℕ), ks.Pairwise (· < ·) → M ∈ ks → p M →
      (∀ k ∈ ks, p k → k ≤ M) → ∀ init,
      ks.foldl (fun b k => if p k then k else b) init = M := by
  intro ks
  induction ks with
  | nil => intro _ h; cases h
  | cons k0 tl ih =>
    intro hsort hmem hpM hbound init
    rcases List.mem_cons.mp hmem with rfl | hmemtl
    · have hnone : ∀ k ∈ tl, ¬ p k := by
        intro k hk hpk
        have h1 : M < k := (List.pairwise_cons.mp hsort).1 k hk
        have h2 : k ≤ M := hbound k (List.mem_cons_of_mem _ hk) hpk
        omega
      have hstay : ∀ (tl' : List ℕ), (∀ k ∈ tl', ¬ p k) → ∀ init',
          tl'.foldl (fun b k => if p k then k else b) init' = init' := by
        intro tl'
        induction tl' with
        | nil => intro _ _; rfl
        | cons a tl2 ih2 =>
          intro hno init'
          have ha : ¬ p a := hno a (List.mem_cons_self _ _)
          simp only [List.foldl_cons, if_neg ha]
          exact ih2 (fun k hk => hno k (List.mem_cons_of_mem _ hk)) init'
      simp only [List.foldl_cons, if_pos hpM]
      exact hstay tl hnone M
    · simp only [List.foldl_cons]
      exact ih (List.pairwise_cons.mp hsort).2 hmemtl hpM
        (fun k hk => hbound k (List.mem_cons_of_mem _ hk)) _

/-- The capped left window's suffix of size `k` is the text's suffix of size
`k`. -/
theorem window_suffix (l : List Char) (cap k : ℕ) (hk : k ≤ min l.length cap) :
    (l.drop (l.length - cap)).drop ((l.drop (l.length - cap)).length - k) =
      l.drop (l.length - k) := by
  rw [List.drop_drop, List.length_drop]
  congr 1
  omega

/-- The capped right window's size-`k` front is the text's size-`k` front. -/
theorem window_front (l : List Char) (cap k : ℕ) (hk : k ≤ cap) :
    (l.take cap).take k = l.take k := by
  rw [List.take_take, min_eq_left hk]

/-- `findOverlap` returns the largest exact overlap when one of size
`≥ min_overlap` exists inside the capped windows. -/
theorem findOverlap_eq_max (left right : List Char) (M : ℕ)
    (hM50 : 50 ≤ M) (hMcap : M ≤ min (min left.length right.length) 800)
    (hmatch : left.drop (left.length - M) = right.take M)
    (hmax : ∀ k, 50 ≤ k → k ≤ min (min left.length right.length) 800 →
      left.drop (left.length - k) = right.take k → k ≤ M) :
    findOverlap left right = M := by
  have hbest : exactBest left right 50 800 = M := by
    unfold exactBest
    apply foldl_pick_eq
      (p := fun k => (left.drop (left.length - 800)).drop
        ((left.drop (left.length - 800)).length - k) = (right.take 800).take k) M
    · exact List.pairwise_lt_range' 50 _ 1
    · rw [List.mem_range'_1, List.length_drop, List.length_take]
      omega
    · show (left.drop (left.length - 800)).drop _ = _
      rw [window_suffix left 800 M (by omega), window_front right 800 M (by omega)]
      exact hmatch
    · intro k hk hpk
      rw [List.mem_range'_1, List.length_drop, List.length_take] at hk
      have hk50 : 50 ≤ k := hk.1
      have hkle : k ≤ min (min left.length right.length) 800 := by omega
      rw [window_suffix left 800 k (by omega), window_front right 800 k (by omega)]
        at hpk
      exact hmax k hk50 hkle hpk
  unfold findOverlap
  rw [hbest]
  simp only [if_neg (by omega : ¬ M = 0)]

set_option maxHeartbeats 3200000 in
/-- C3 counterexample: two chunks sharing exactly their last/first 40 characters
(below `min_overlap = 50`, with sentence units too short for the fuzzy path) are
merged by plain concatenation: the claimed seam equation and character-count
formula both fail. -/
theorem chunk_merge_overlap_cex :
    c3left.data.drop (c3left.length - 40) = c3right.data.take 40 ∧
    c3left.data.drop (c3left.length - 41) ≠ c3right.data.take 41 ∧
    mergeChunks [c3left, c3right] = c3left ++ "\n" ++ c3right ∧
    mergeChunks [c3left, c3right] ≠ ⟨c3left.data ++ '\n' :: c3right.data.drop 40⟩ ∧
    (mergeChunks [c3left, c3right]).length ≠
      c3left.length + c3right.length - 40 + 1 := by
  refine ⟨by decide, by decide, by decide, by decide, by decide⟩

/-- C3 (amended): when the two texts have an exact trailing/leading overlap of
size ≥ `min_overlap = 50` within the capped search windows, and `M` is the
largest such size, `merge_chunks([left, right])` equals
`left + "\n" + right[M:]`, whose character count is
`len(left) + len(right) - M + 1`. -/
theorem chunk_merge_overlap (left right : String) (M : ℕ)
    (hM50 : 50 ≤ M) (hMcap : M ≤ min (min left.length right.length) 800)
    (hmatch : left.data.drop (left.length - M) = right.data.take M)
    (hmax : ∀ k, 50 ≤ k → k ≤ min (min left.length right.length) 800 →
      left.data.drop (left.length - k) = right.data.take k → k ≤ M) :
    mergeChunks [left, right] = ⟨left.data ++ '\n' :: right.data.drop M⟩ ∧
    (mergeChunks [left, right]).length = left.length + right.length - M + 1 := by
  have hdl : left.data.length = left.length := rfl
  have hdr : right.data.length = right.length := rfl
  have hov : findOverlap left.data right.data = M := by
    apply findOverlap_eq_max left.data right.data M hM50
    · omega
    · exact hmatch
    · intro k h1 h2 h3
      exact hmax k h1 (by omega) h3
  have hpair : mergeChunks [left, right] =
      ⟨mergeTwoChunks left.data right.data⟩ := by
    simp only [mergeChunks, List.foldl_cons, List.foldl_nil]
  have hmerge : mergeChunks [left, right] =
      ⟨left.data ++ '\n' :: right.data.drop M⟩ := by
    rw [hpair]
    unfold mergeTwoChunks
    rw [hov]
    rw [if_pos (by omega : M > 0)]
  refine ⟨hmerge, ?_⟩
  rw [hmerge]
  have hlm : (String.mk (left.data ++ '\n' :: right.data.drop M)).length =
      (left.data ++ '\n' :: right.data.drop M).length := rfl
  rw [hlm, List.length_append]
  simp only [List.length_cons, List.length_drop]
  omega

set_option maxHeartbeats 3200000 in
/-- Witness for the amended C3 at a concrete pair with largest overlap 60. -/
theorem chunk_merge_overlap_witness :
    (50 ≤ 60 ∧ 60 ≤ min (min c3wLeft.length c3wRight.length) 800 ∧
      c3wLeft.data.drop (c3wLeft.length - 60) = c3wRight.data.take 60 ∧
      (∀ k < 91, 50 ≤ k →
        c3wLeft.data.drop (c3wLeft.length - k) = c3wRight.data.take k → k ≤ 60)) ∧
    mergeChunks [c3wLeft, c3wRight] =
      ⟨c3wLeft.data ++ '\n' :: c3wRight.data.drop 60⟩ ∧
    (mergeChunks [c3wLeft, c3wRight]).length =
      c3wLeft.length + c3wRight.length - 60 + 1 := by
  have hall : ∀ k < 91, 50 ≤ k →
      c3wLeft.data.drop (c3wLeft.length - k) = c3wRight.data.take k → k ≤ 60 :=
    by decide
  have hL : c3wLeft.length = 90 := by decide
  have hR : c3wRight.length = 90 := by decide
  refine ⟨⟨by decide, by decide, by decide, hall⟩, ?_⟩
  apply chunk_merge_overlap c3wLeft c3wRight 60 (by decide) (by decide) (by decide)
  intro k hk50 hkle hm
  exact hall k (by omega) hk50 hm

/-- Mapping an entry-builder over an enumerated list and projecting a field that
the builder copies from the element recovers the underlying list. -/
theorem map_word_enum_map {β : Type} (l : List β) (f : ℕ × β → AnnWord)
    (wf : β → String) (h : ∀ p, (f p).word = wf p.2) :
    ((l.enum.map f).map (fun w => w.word)) = l.map wf := by
  rw [List.map_map]
  have h2 : ((fun w => AnnWord.word w) ∘ f) = (fun p : ℕ × β => wf p.2) :=
    funext h
  rw [h2]
  rw [show (fun p : ℕ × β => wf p.2) = wf ∘ Prod.snd from rfl]
  rw [← List.map_map, List.enum_map_snd]

/-- `_attach_speakers` relabels words in place: the word sequence is
untouched. -/
theorem attachSpeakers_map_word (l : List AnnWord) (labels : List SpeakerLabel)
    (t : String) :
    (attachSpeakers l labels t).map (fun w => w.word) = l.map (fun w => w.word) := by
  unfold attachSpeakers
  apply map_word_enum_map
  intro p
  cases (lineAssignments t).get? p.1 <;> rfl

/-- `_interpolate_gaps` retimes words in place: the word sequence is
untouched. -/
theorem fillGaps_map_word :
    ∀ (fuel : ℕ) (le : ℕ) (l : List AnnWord),
      (fillGaps fuel le l).map (fun w => w.word) = l.map (fun w => w.word) := by
  intro fuel
  induction fuel with
  | zero => intro le l; rfl
  | succ fuel ih =>
    intro le l
    match l with
    | [] => rfl
    | w :: rest =>
      simp only [fillGaps]
      by_cases hw : w.start_ms.isSome
      · rw [if_pos hw]
        simp only [List.map_cons]
        rw [ih]
      · rw [if_neg hw]
        rw [List.map_append, ih]
        rw [map_word_enum_map _ _ (fun w => w.word) (fun p => rfl)]
        rw [← List.map_append, List.takeWhile_append_dropWhile]

/-- C5: Alignment completeness — the word field of `align_timestamps`' output,
in order, is exactly the flattened word list of `final_text` with speaker labels
stripped and blank lines skipped, on every input (matched, interpolated, or
fallback). -/
theorem alignment_complete (stt : List SttWord) (t : String) :
    (alignTimestamps stt t).map (fun w => w.word) = (stripSpeakerLabels t).1 := by
  unfold alignTimestamps
  by_cases h : (stripSpeakerLabels t).1.isEmpty ∨ stt.isEmpty
  · rw [if_pos h]
    unfold buildFallback
    rw [map_word_enum_map _ _ id (fun p => rfl), List.map_id]
  · rw [if_neg h]
    rw [attachSpeakers_map_word, fillGaps_map_word]
    rw [map_word_enum_map _ _ id ?_, List.map_id]
    intro p
    cases blockLookup (matchingBlocks ((stripSpeakerLabels t).1.map normalizeWord)
      (stt.map (fun w => normalizeWord w.word)) false) p.1 <;> rfl

/-- Interpolated sub-interval endpoints are monotone in the gap position. -/
theorem interp_step_le (le k per g : ℕ) :
    le + k * per / g ≤ le + (k + 1) * per / g :=
  Nat.add_le_add_left (Nat.div_le_div_right (Nat.mul_le_mul_right per (by omega))) le

/-- After interpolation, every entry of a list whose timestamped entries are
well-formed (end present, start ≤ end) has both timestamps, with
start ≤ end. -/
theorem fillGaps_total :
    ∀ (fuel : ℕ) (le : ℕ) (l : List AnnWord), l.length ≤ fuel →
      (∀ w ∈ l, w.start_ms.isSome →
        w.end_ms.isSome ∧ startD w ≤ endD w) →
      ∀ w ∈ fillGaps fuel le l,
        w.start_ms.isSome ∧ w.end_ms.isSome ∧ startD w ≤ endD w := by
  intro fuel
  induction fuel with
  | zero =>
    intro le l hlen _ w hw
    rw [Nat.le_zero, List.length_eq_zero] at hlen
    subst hlen
    cases hw
  | succ fuel ih =>
    intro le l hlen hS w hw
    match l with
    | [] => cases hw
    | w0 :: rest =>
      simp only [fillGaps] at hw
      by_cases h0 : w0.start_ms.isSome
      · rw [if_pos h0] at hw
        rcases List.mem_cons.mp hw with rfl | hw'
        · exact ⟨h0, (hS w (List.mem_cons_self _ _) h0).1,
            (hS w (List.mem_cons_self _ _) h0).2⟩
        · exact ih _ rest (by simpa using hlen)
            (fun x hx hs => hS x (List.mem_cons_of_mem _ hx) hs) w hw'
      · rw [if_neg h0] at hw
        rcases List.mem_append.mp hw with hfill | hrec
        · rcases List.mem_map.mp hfill with ⟨p, _, rfl⟩
          refine ⟨rfl, rfl, ?_⟩
          dsimp only [startD, endD, Option.getD_some]
          exact interp_step_le le p.1 _ _
        · have hne : ((w0 :: rest).takeWhile (fun x => x.start_ms.isNone)).length +
              ((w0 :: rest).dropWhile (fun x => x.start_ms.isNone)).length =
              (w0 :: rest).length := by
            rw [← List.length_append, List.takeWhile_append_dropWhile]
          have hgap1 : 0 < ((w0 :: rest).takeWhile
              (fun x => x.start_ms.isNone)).length := by
            rw [List.takeWhile_cons_of_pos (by simpa using h0)]
            simp
          refine ih _ _ ?_ ?_ w hrec
          · simp only [List.length_cons] at hlen hne
            omega
          · intro x hx hs
            exact hS x ((List.dropWhile_sublist _).mem hx) hs

/-- `_attach_speakers` only relabels: each output record keeps the start/end
timestamps of a corresponding input record. -/
theorem attachSpeakers_fields (l : List AnnWord) (labels : List SpeakerLabel)
    (t : String) :
    ∀ w ∈ attachSpeakers l labels t,
      ∃ w₀ ∈ l, w.start_ms = w₀.start_ms ∧ w.end_ms = w₀.end_ms := by
  intro w hw
  unfold attachSpeakers at hw
  rcases List.mem_map.mp hw with ⟨p, hp, rfl⟩
  refine ⟨p.2, ?_, ?_, ?_⟩
  · have h := List.mem_map_of_mem Prod.snd hp
    rwa [List.enum_map_snd] at h
  · cases (lineAssignments t).get? p.1 <;> rfl
  · cases (lineAssignments t).get? p.1 <;> rfl

/-- The entries created before interpolation are well-formed: a timestamped
entry has both fields, with `offset ≤ offset + duration`. -/
theorem annotate_wellformed (stt : List SttWord) (t : String) :
    ∀ x ∈ (stripSpeakerLabels t).1.enum.map (fun p =>
      match blockLookup (matchingBlocks ((stripSpeakerLabels t).1.map normalizeWord)
          (stt.map (fun w => normalizeWord w.word)) false) p.1 with
      | some j =>
        { word := p.2, start_ms := some (stt.getD j default).offset_ms,
          end_ms := some ((stt.getD j default).offset_ms +
            (stt.getD j default).duration_ms),
          speaker := none, is_interpolated := false, line_index := 0 }
      | none =>
        { word := p.2, start_ms := none, end_ms := none, speaker := none,
          is_interpolated := true, line_index := 0 }),
      x.start_ms.isSome → x.end_ms.isSome ∧ startD x ≤ endD x := by
  intro x hx hs
  rcases List.mem_map.mp hx with ⟨q, _, rfl⟩
  revert hs
  cases blockLookup (matchingBlocks ((stripSpeakerLabels t).1.map normalizeWord)
      (stt.map (fun w => normalizeWord w.word)) false) q.1 with
  | none => intro hs; cases hs
  | some j =>
    intro _
    refine ⟨rfl, ?_⟩
    dsimp only [startD, endD, Option.getD_some]
    omega

/-- C10 (implicit): timestamp totality — with a non-empty STT stream and a final
text containing at least one word, every output record of `align_timestamps`
carries non-null timestamps with `start_ms ≤ end_ms`; the null-timestamp
fallback is reachable only from an empty input. -/
theorem timestamps_total (stt : List SttWord) (t : String)
    (h1 : stt ≠ []) (h2 : (stripSpeakerLabels t).1 ≠ []) :
    ∀ w ∈ alignTimestamps stt t,
      ∃ s e, w.start_ms = some s ∧ w.end_ms = some e ∧ s ≤ e := by
  intro w hw
  unfold alignTimestamps at hw
  rw [if_neg (by simp [h1, h2])] at hw
  rcases attachSpeakers_fields _ _ _ w hw with ⟨w₀, hw₀, hws, hwe⟩
  have htot := fillGaps_total _ 0 _ le_rfl (annotate_wellformed stt t) w₀ hw₀
  rcases htot with ⟨hs, he, hle⟩
  rcases Option.isSome_iff_exists.mp hs with ⟨s, hs'⟩
  rcases Option.isSome_iff_exists.mp he with ⟨e, he'⟩
  refine ⟨s, e, ?_, ?_, ?_⟩
  · rw [hws]; exact hs'
  · rw [hwe]; exact he'
  · unfold startD endD at hle
    rw [hs', he'] at hle
    simpa using hle

/-- The left extension phase of `find_longest_match` stays inside the search
rectangle. -/
theorem extLeft_bestInv {α : Type} [DecidableEq α] (a b : List α)
    (alo ahi blo bhi : ℕ) :
    ∀ (fuel : ℕ) (st : ℕ × ℕ × ℕ), BestInv alo ahi blo bhi st →
      BestInv alo ahi blo bhi (extLeft a b alo blo fuel st) := by
  intro fuel
  induction fuel with
  | zero => intro st h; exact h
  | succ fuel ih =>
    intro st h
    match st with
    | (i, j, k) =>
      obtain ⟨h1, h2, h3, h4, h5⟩ := h
      dsimp only at h1 h2 h3 h4 h5
      simp only [extLeft]
      by_cases hc : alo < i ∧ blo < j ∧ (a.get? (i - 1)).isSome ∧
          a.get? (i - 1) = b.get? (j - 1)
      · rw [if_pos hc]
        apply ih
        exact ⟨show alo ≤ i - 1 by omega, show blo ≤ j - 1 by omega,
          show i - 1 + (k + 1) ≤ ahi by omega, show j - 1 + (k + 1) ≤ bhi by omega,
          fun hh => absurd (show k + 1 = 0 from hh) (by omega)⟩
      · rw [if_neg hc]
        exact ⟨h1, h2, h3, h4, h5⟩

/-- The right extension phase of `find_longest_match` stays inside the search
rectangle. -/
theorem extRight_bestInv {α : Type} [DecidableEq α] (a b : List α)
    (alo ahi blo bhi : ℕ) :
    ∀ (fuel : ℕ) (st : ℕ × ℕ × ℕ), BestInv alo ahi blo bhi st →
      BestInv alo ahi blo bhi (extRight a b ahi bhi fuel st) := by
  intro fuel
  induction fuel with
  | zero => intro st h; exact h
  | succ fuel ih =>
    intro st h
    match st with
    | (i, j, k) =>
      obtain ⟨h1, h2, h3, h4, h5⟩ := h
      dsimp only at h1 h2 h3 h4 h5
      simp only [extRight]
      by_cases hc : i + k < ahi ∧ j + k < bhi ∧ (a.get? (i + k)).isSome ∧
          a.get? (i + k) = b.get? (j + k)
      · rw [if_pos hc]
        apply ih
        exact ⟨h1, h2, show i + (k + 1) ≤ ahi by omega,
          show j + (k + 1) ≤ bhi by omega,
          fun hh => absurd (show k + 1 = 0 from hh) (by omega)⟩
      · rw [if_neg hc]
        exact ⟨h1, h2, h3, h4, h5⟩

/-- `j2len.get(j-1, 0)` entries inherit the previous row's bounds. -/
theorem j2lenGet_le (j2len : List (ℕ × ℕ)) (j blo bound : ℕ) (hj : blo ≤ j)
    (hprev : ∀ p ∈ j2len, blo ≤ p.1 ∧ p.2 ≤ p.1 + 1 - blo ∧ p.2 ≤ bound) :
    j2lenGet j2len j ≤ j - blo ∧ j2lenGet j2len j ≤ bound := by
  unfold j2lenGet
  by_cases hj0 : j = 0
  · rw [if_pos hj0]
    omega
  · rw [if_neg hj0]
    cases hfind : j2len.find? (fun p => p.1 = j - 1) with
    | none =>
      simp only [Option.map_none', Option.getD_none]
      omega
    | some q =>
      simp only [Option.map_some', Option.getD_some]
      have hqmem := List.mem_of_find?_eq_some hfind
      have hqeq : q.1 = j - 1 := by
        have h := List.find?_some hfind
        simpa using h
      have h2 := hprev q hqmem
      omega

/-- A fold of `flmStep` over in-range `b`-indices keeps the running best inside
the rectangle and the fresh `j2len` entries bounded. -/
theorem flmStep_fold_inv (i blo bhi alo ahi : ℕ) (j2len : List (ℕ × ℕ))
    (hi : alo ≤ i) (hi2 : i < ahi)
    (hprev : ∀ p ∈ j2len, blo ≤ p.1 ∧ p.2 ≤ p.1 + 1 - blo ∧ p.2 ≤ i - alo) :
    ∀ (js : List ℕ), (∀ j ∈ js, blo ≤ j ∧ j < bhi) →
    ∀ (st : List (ℕ × ℕ) × (ℕ × ℕ × ℕ)),
      (∀ p ∈ st.1, blo ≤ p.1 ∧ p.1 < bhi ∧ p.2 ≤ p.1 + 1 - blo ∧
        p.2 ≤ i + 1 - alo) →
      BestInv alo ahi blo bhi st.2 →
      (∀ p ∈ (js.foldl (flmStep i j2len) st).1, blo ≤ p.1 ∧ p.1 < bhi ∧
        p.2 ≤ p.1 + 1 - blo ∧ p.2 ≤ i + 1 - alo) ∧
      BestInv alo ahi blo bhi (js.foldl (flmStep i j2len) st).2 := by
  intro js
  induction js with
  | nil => intro _ st h1 h2; exact ⟨h1, h2⟩
  | cons j tl ih =>
    intro hjs st hst hbest
    have hj := hjs j (List.mem_cons_self _ _)
    have hget := j2lenGet_le j2len j blo (i - alo) hj.1 hprev
    simp only [List.foldl_cons]
    apply ih (fun x hx => hjs x (List.mem_cons_of_mem _ hx))
    · intro p hp
      rcases List.mem_cons.mp hp with rfl | hp'
      · exact ⟨hj.1, hj.2, by omega, by omega⟩
      · exact hst p hp'
    · unfold flmStep
      show BestInv alo ahi blo bhi (if j2lenGet j2len j + 1 > st.2.2.2 then
        (i + 1 - (j2lenGet j2len j + 1), j + 1 - (j2lenGet j2len j + 1),
          j2lenGet j2len j + 1) else st.2)
      by_cases hgt : j2lenGet j2len j + 1 > st.2.2.2
      · rw [if_pos hgt]
        exact ⟨show alo ≤ i + 1 - (j2lenGet j2len j + 1) by omega,
          show blo ≤ j + 1 - (j2lenGet j2len j + 1) by omega,
          show i + 1 - (j2lenGet j2len j + 1) + (j2lenGet j2len j + 1) ≤ ahi by omega,
          show j + 1 - (j2lenGet j2len j + 1) + (j2lenGet j2len j + 1) ≤ bhi by omega,
          fun hh => absurd (show j2lenGet j2len j + 1 = 0 from hh) (by omega)⟩
      · rw [if_neg hgt]
        exact hbest

/-- Folding the dynamic-programming rows keeps the best match inside the
rectangle. -/
theorem flmDP_rows_inv (blo bhi alo ahi : ℕ) (jsOf : ℕ → List ℕ) :
    ∀ (rows : List ℕ), (∀ i ∈ rows, alo ≤ i ∧ i < ahi) →
      rows.Pairwise (· < ·) →
      ∀ (st : List (ℕ × ℕ) × (ℕ × ℕ × ℕ)),
        (∀ p ∈ st.1, blo ≤ p.1 ∧ p.1 < bhi ∧ p.2 ≤ p.1 + 1 - blo ∧
          (∀ i ∈ rows, p.2 ≤ i - alo)) →
        BestInv alo ahi blo bhi st.2 →
        BestInv alo ahi blo bhi ((rows.foldl
          (fun (st : List (ℕ × ℕ) × (ℕ × ℕ × ℕ)) i =>
            flmRow i blo bhi (jsOf i) st.1 ([], st.2)) st).2) := by
  intro rows
  induction rows with
  | nil => intro _ _ st _ h2; exact h2
  | cons i tl ih =>
    intro hrows hsort st hst hbest
    have hi := hrows i (List.mem_cons_self _ _)
    simp only [List.foldl_cons]
    have hrow := flmStep_fold_inv i blo bhi alo ahi st.1 hi.1 hi.2
      (fun p hp => ⟨(hst p hp).1, (hst p hp).2.2.1,
        (hst p hp).2.2.2 i (List.mem_cons_self _ _)⟩)
      (((jsOf i).takeWhile (· < bhi)).filter (fun j => blo ≤ j))
      (fun j hj => ⟨by
          have h1 := (List.mem_filter.mp hj).2
          simpa using h1,
        by
          have h2 := List.mem_takeWhile_imp (List.mem_filter.mp hj).1
          simpa using h2⟩)
      ([], st.2) (fun p hp => absurd hp (List.not_mem_nil p)) hbest
    apply ih (fun x hx => hrows x (List.mem_cons_of_mem _ hx))
      (List.pairwise_cons.mp hsort).2
    · intro p hp
      have h3 := hrow.1 p hp
      refine ⟨h3.1, h3.2.1, h3.2.2.1, ?_⟩
      intro i' hi'
      have hlt : i < i' := (List.pairwise_cons.mp hsort).1 i' hi'
      have h4 := h3.2.2.2
      omega
    · exact hrow.2

/-- `find_longest_match` stays inside its search rectangle; a zero-size result
sits at the rectangle origin. -/
theorem flm_bounds {α : Type} [DecidableEq α] (a b : List α) (bj : α → List ℕ)
    (alo ahi blo bhi : ℕ) (ha : alo ≤ ahi) (hb : blo ≤ bhi) :
    BestInv alo ahi blo bhi (flm a b bj alo ahi blo bhi) := by
  unfold flm
  apply extRight_bestInv
  apply extLeft_bestInv
  unfold flmDP
  apply flmDP_rows_inv blo bhi alo ahi (fun i => (a.get? i).elim [] bj)
  · intro i hi
    rw [List.mem_range'_1] at hi
    omega
  · exact List.pairwise_lt_range' alo _ 1
  · intro p hp
    exact absurd hp (List.not_mem_nil p)
  · exact ⟨show alo ≤ alo from le_rfl, show blo ≤ blo from le_rfl,
      show alo + 0 ≤ ahi by omega, show blo + 0 ≤ bhi by omega,
      fun _ => ⟨rfl, rfl⟩⟩

/-- Unfolding equation of the divide-and-conquer block collection. -/
theorem gmbGo_succ {α : Type} [DecidableEq α] (a b : List α) (bj : α → List ℕ)
    (fuel alo ahi blo bhi : ℕ) :
    gmbGo a b bj (fuel + 1) alo ahi blo bhi =
      if (flm a b bj alo ahi blo bhi).2.2 = 0 then []
      else
        gmbGo a b bj fuel alo (flm a b bj alo ahi blo bhi).1 blo
            (flm a b bj alo ahi blo bhi).2.1 ++
          flm a b bj alo ahi blo bhi ::
            gmbGo a b bj fuel
              ((flm a b bj alo ahi blo bhi).1 + (flm a b bj alo ahi blo bhi).2.2) ahi
              ((flm a b bj alo ahi blo bhi).2.1 + (flm a b bj alo ahi blo bhi).2.2) bhi :=
  rfl

/-- The collected matching blocks are nonempty, lie inside the search
rectangle, and are strictly separated in both coordinates, in list order. -/
theorem gmbGo_props {α : Type} [DecidableEq α] (a b : List α) (bj : α → List ℕ) :
    ∀ (fuel alo ahi blo bhi : ℕ), alo ≤ ahi → blo ≤ bhi →
      (∀ m ∈ gmbGo a b bj fuel alo ahi blo bhi,
        alo ≤ m.1 ∧ m.1 + m.2.2 ≤ ahi ∧ blo ≤ m.2.1 ∧ m.2.1 + m.2.2 ≤ bhi ∧
          1 ≤ m.2.2) ∧
      (gmbGo a b bj fuel alo ahi blo bhi).Pairwise BlockOrd := by
  intro fuel
  induction fuel with
  | zero =>
    intro alo ahi blo bhi _ _
    exact ⟨fun m hm => absurd hm (List.not_mem_nil m), List.Pairwise.nil⟩
  | succ fuel ih =>
    intro alo ahi blo bhi ha hb
    rw [gmbGo_succ]
    obtain ⟨hm1, hm2, hm3, hm4, hm5⟩ := flm_bounds a b bj alo ahi blo bhi ha hb
    by_cases hz : (flm a b bj alo ahi blo bhi).2.2 = 0
    · rw [if_pos hz]
      exact ⟨fun m hm => absurd hm (List.not_mem_nil m), List.Pairwise.nil⟩
    · rw [if_neg hz]
      have hL := ih alo (flm a b bj alo ahi blo bhi).1 blo
        (flm a b bj alo ahi blo bhi).2.1 hm1 hm2
      have hR := ih ((flm a b bj alo ahi blo bhi).1 +
          (flm a b bj alo ahi blo bhi).2.2) ahi
        ((flm a b bj alo ahi blo bhi).2.1 + (flm a b bj alo ahi blo bhi).2.2) bhi
        hm3 hm4
      constructor
      · intro m hm
        rcases List.mem_append.mp hm with hmL | hmM
        · have h := hL.1 m hmL
          refine ⟨h.1, by omega, h.2.2.1, by omega, h.2.2.2.2⟩
        · rcases List.mem_cons.mp hmM with rfl | hmR
          · exact ⟨hm1, hm3, hm2, hm4, by omega⟩
          · have h := hR.1 m hmR
            refine ⟨by omega, h.2.1, by omega, h.2.2.2.1, h.2.2.2.2⟩
      · rw [List.pairwise_append]
        refine ⟨hL.2, ?_, ?_⟩
        · rw [List.pairwise_cons]
          refine ⟨?_, hR.2⟩
          intro r hr
          have h := hR.1 r hr
          exact ⟨by omega, by omega⟩
        · intro x hx y hy
          have hxb := hL.1 x hx
          rcases List.mem_cons.mp hy with rfl | hyR
          · exact ⟨by omega, by omega⟩
          · have hyb := hR.1 y hyR
            exact ⟨by omega, by omega⟩

/-- The adjacent-block merge preserves rectangle bounds and separation. -/
theorem mergeAdjacent_props (la lb : ℕ) :
    ∀ (blocks : List (ℕ × ℕ × ℕ)) (acc : ℕ × ℕ × ℕ),
      (∀ m ∈ blocks, BlockIn la lb m) → blocks.Pairwise BlockOrd →
      (∀ m ∈ blocks, BlockOrd acc m) → BlockIn la lb acc →
      (∀ m ∈ mergeAdjacent blocks acc, BlockIn la lb m) ∧
      (mergeAdjacent blocks acc).Pairwise BlockOrd ∧
      (∀ m ∈ mergeAdjacent blocks acc, acc.1 ≤ m.1 ∧ acc.2.1 ≤ m.2.1) := by
  intro blocks
  induction blocks with
  | nil =>
    intro acc _ _ _ hacc
    simp only [mergeAdjacent]
    by_cases hk : acc.2.2 ≠ 0
    · rw [if_pos hk]
      refine ⟨?_, ?_, ?_⟩
      · intro m hm
        rcases List.mem_singleton.mp hm with rfl
        exact hacc
      · exact List.pairwise_singleton _ _
      · intro m hm
        rcases List.mem_singleton.mp hm with rfl
        exact ⟨le_rfl, le_rfl⟩
    · rw [if_neg hk]
      exact ⟨fun m hm => absurd hm (List.not_mem_nil m), List.Pairwise.nil,
        fun m hm => absurd hm (List.not_mem_nil m)⟩
  | cons bl tl ih =>
    intro acc hIn hord hacc haccIn
    obtain ⟨i2, j2, k2⟩ := bl
    obtain ⟨i1, j1, k1⟩ := acc
    have hbl := hIn (i2, j2, k2) (List.mem_cons_self _ _)
    have hao := hacc (i2, j2, k2) (List.mem_cons_self _ _)
    have ho1 : i1 + k1 ≤ i2 := hao.1
    have ho2 : j1 + k1 ≤ j2 := hao.2
    have hb1 : i2 + k2 ≤ la := hbl.1
    have hb2 : j2 + k2 ≤ lb := hbl.2
    have ha1 : i1 + k1 ≤ la := haccIn.1
    have ha2 : j1 + k1 ≤ lb := haccIn.2
    simp only [mergeAdjacent]
    by_cases hadj : i1 + k1 = i2 ∧ j1 + k1 = j2
    · rw [if_pos hadj]
      have hrec := ih (i1, j1, k1 + k2)
        (fun m hm => hIn m (List.mem_cons_of_mem _ hm))
        (List.pairwise_cons.mp hord).2
        (fun m hm => by
          have h := (List.pairwise_cons.mp hord).1 m hm
          have hc1 : i2 + k2 ≤ m.1 := h.1
          have hc2 : j2 + k2 ≤ m.2.1 := h.2
          exact ⟨show i1 + (k1 + k2) ≤ m.1 by omega,
            show j1 + (k1 + k2) ≤ m.2.1 by omega⟩)
        ⟨show i1 + (k1 + k2) ≤ la by omega, show j1 + (k1 + k2) ≤ lb by omega⟩
      refine ⟨hrec.1, hrec.2.1, ?_⟩
      intro m hm
      have h := hrec.2.2 m hm
      have h1 : i1 ≤ m.1 := h.1
      have h2 : j1 ≤ m.2.1 := h.2
      exact ⟨h1, h2⟩
    · rw [if_neg hadj]
      have hrec := ih (i2, j2, k2)
        (fun m hm => hIn m (List.mem_cons_of_mem _ hm))
        (List.pairwise_cons.mp hord).2
        (fun m hm => (List.pairwise_cons.mp hord).1 m hm)
        hbl
      refine ⟨?_, ?_, ?_⟩
      · intro m hm
        rcases List.mem_append.mp hm with hm1 | hm2
        · by_cases hk : k1 ≠ 0
          · rw [if_pos hk] at hm1
            rcases List.mem_singleton.mp hm1 with rfl
            exact ⟨ha1, ha2⟩
          · rw [if_neg hk] at hm1
            exact absurd hm1 (List.not_mem_nil m)
        · exact hrec.1 m hm2
      · rw [List.pairwise_append]
        refine ⟨?_, hrec.2.1, ?_⟩
        · by_cases hk : k1 ≠ 0
          · rw [if_pos hk]
            exact List.pairwise_singleton _ _
          · rw [if_neg hk]
            exact List.Pairwise.nil
        · intro x hx y hy
          by_cases hk : k1 ≠ 0
          · rw [if_pos hk] at hx
            rcases List.mem_singleton.mp hx with rfl
            have h := hrec.2.2 y hy
            have h1 : i2 ≤ y.1 := h.1
            have h2 : j2 ≤ y.2.1 := h.2
            exact ⟨show i1 + k1 ≤ y.1 by omega, show j1 + k1 ≤ y.2.1 by omega⟩
          · rw [if_neg hk] at hx
            exact absurd hx (List.not_mem_nil x)
      · intro m hm
        rcases List.mem_append.mp hm with hm1 | hm2
        · by_cases hk : k1 ≠ 0
          · rw [if_pos hk] at hm1
            rcases List.mem_singleton.mp hm1 with rfl
            exact ⟨le_rfl, le_rfl⟩
          · rw [if_neg hk] at hm1
            exact absurd hm1 (List.not_mem_nil m)
        · have h := hrec.2.2 m hm2
          have h1 : i2 ≤ m.1 := h.1
          have h2 : j2 ≤ m.2.1 := h.2
          exact ⟨show i1 ≤ m.1 by omega, show j1 ≤ m.2.1 by omega⟩

/-- `get_matching_blocks` output: every block lies inside the `la × lb`
rectangle and the list is separated in both coordinates. -/
theorem matchingBlocks_props {α : Type} [DecidableEq α] (a b : List α)
    (aj : Bool) :
    (∀ m ∈ matchingBlocks a b aj, BlockIn a.length b.length m) ∧
    (matchingBlocks a b aj).Pairwise BlockOrd := by
  unfold matchingBlocks
  have hg := gmbGo_props a b (b2j b aj) (a.length + b.length + 1) 0 a.length 0
    b.length (Nat.zero_le _) (Nat.zero_le _)
  have hm := mergeAdjacent_props a.length b.length
    (gmbGo a b (b2j b aj) (a.length + b.length + 1) 0 a.length 0 b.length)
    (0, 0, 0)
    (fun m hmm => by
      have h := hg.1 m hmm
      exact ⟨by omega, by omega⟩)
    hg.2
    (fun m hmm => by
      have h := hg.1 m hmm
      exact ⟨show 0 + 0 ≤ m.1 by omega, show 0 + 0 ≤ m.2.1 by omega⟩)
    ⟨show 0 + 0 ≤ a.length by omega, show 0 + 0 ≤ b.length by omega⟩
  constructor
  · intro m hmm
    rcases List.mem_append.mp hmm with h1 | h2
    · exact hm.1 m h1
    · rcases List.mem_singleton.mp h2 with rfl
      exact ⟨show a.length + 0 ≤ a.length by omega,
        show b.length + 0 ≤ b.length by omega⟩
  · rw [List.pairwise_append]
    refine ⟨hm.2.1, List.pairwise_singleton _ _, ?_⟩
    intro x hx y hy
    rcases List.mem_singleton.mp hy with rfl
    have h := hm.1 x hx
    exact ⟨show x.1 + x.2.2 ≤ a.length from h.1,
      show x.2.1 + x.2.2 ≤ b.length from h.2⟩

/-- A successful `blockLookup` comes from a block covering the index. -/
theorem blockLookup_mem (blocks : List (ℕ × ℕ × ℕ)) (i j : ℕ)
    (h : blockLookup blocks i = some j) :
    ∃ m ∈ blocks, m.1 ≤ i ∧ i < m.1 + m.2.2 ∧ j = m.2.1 + (i - m.1) := by
  unfold blockLookup at h
  obtain ⟨m, hm, hf⟩ := List.exists_of_findSome?_eq_some h
  by_cases hc : m.1 ≤ i ∧ i < m.1 + m.2.2
  · rw [if_pos hc] at hf
    exact ⟨m, hm, hc.1, hc.2, (Option.some_injective _ hf).symm⟩
  · rw [if_neg hc] at hf
    cases hf

/-- Over a bounded, separated block list, the index map is strictly monotone
and lands inside `lb`. -/
theorem blockLookup_mono (blocks : List (ℕ × ℕ × ℕ)) (la lb : ℕ)
    (hIn : ∀ m ∈ blocks, BlockIn la lb m) (hord : blocks.Pairwise BlockOrd)
    (i i' j j' : ℕ) (hii : i < i')
    (h1 : blockLookup blocks i = some j)
    (h2 : blockLookup blocks i' = some j') :
    j < j' ∧ j' < lb := by
  obtain ⟨m, hm, hm1, hm2, rfl⟩ := blockLookup_mem blocks i j h1
  obtain ⟨m', hm', hn1, hn2, rfl⟩ := blockLookup_mem blocks i' j' h2
  have hin' := hIn m' hm'
  obtain ⟨hi1, hi2⟩ := hin'
  constructor
  · by_cases heq : m = m'
    · subst heq
      omega
    · have hsym : ∀ x ∈ blocks, ∀ y ∈ blocks, x ≠ y →
          BlockOrd x y ∨ BlockOrd y x := by
        intro x hx y hy hxy
        have hp : blocks.Pairwise (fun x y => BlockOrd x y ∨ BlockOrd y x) :=
          hord.imp (fun h => Or.inl h)
        have hR : Symmetric (fun x y => BlockOrd x y ∨ BlockOrd y x) := by
          intro p q h
          exact Or.symm h
        exact hp.forall hR hx hy hxy
      rcases hsym m hm m' hm' heq with hord1 | hord2
      · obtain ⟨ho1, ho2⟩ := hord1
        omega
      · obtain ⟨ho1, ho2⟩ := hord2
        omega
  · omega

/-- Entries with no start timestamp are transparent for the anchor chain. -/
theorem anchChain_skip (rest : List AnnWord) :
    ∀ (gap : List AnnWord) (le : ℕ), (∀ x ∈ gap, x.start_ms.isNone) →
      AnchChain le (gap ++ rest) → AnchChain le rest := by
  intro gap
  induction gap with
  | nil => intro le _ h; exact h
  | cons x gap ih =>
    intro le hnone h
    rw [List.cons_append] at h
    simp only [AnchChain] at h
    have hx : x.start_ms = none :=
      Option.eq_none_iff_forall_not_mem.mpr (by
        have := hnone x (List.mem_cons_self _ _)
        intro a ha
        rw [Option.isNone_iff_eq_none.mp this] at ha
        cases ha)
    rw [if_neg (by rw [hx]; exact Bool.false_ne_true)] at h
    exact ih le (fun y hy => hnone y (List.mem_cons_of_mem _ hy)) h

/-- The head of a `dropWhile` result fails the predicate. -/
theorem dropWhile_head_false {α : Type} (p : α → Bool) :
    ∀ (l : List α) (y : α) (ys : List α), l.dropWhile p = y :: ys →
      p y = false := by
  intro l
  induction l with
  | nil => intro y ys h; cases h
  | cons a l ih =>
    intro y ys h
    rw [List.dropWhile_cons] at h
    by_cases hp : p a = true
    · rw [if_pos hp] at h
      exact ih y ys h
    · rw [if_neg hp] at h
      injection h with h1 _
      rw [← h1]
      simpa using hp

/-- The anchor-chain invariant holds with bound 0 for any annotation built from
a strictly monotone, in-range index lookup over a non-overlapping STT stream. -/
theorem anchChain_build (blocks : List (ℕ × ℕ × ℕ)) (stt : List SttWord)
    (lg : ℕ)
    (hIn : ∀ m ∈ blocks, BlockIn lg stt.length m)
    (hord : blocks.Pairwise BlockOrd)
    (hpair : stt.Pairwise (fun u v => u.offset_ms + u.duration_ms ≤ v.offset_ms))
    (F : ℕ × String → AnnWord)
    (hFs : ∀ p j, blockLookup blocks p.1 = some j →
      F p = { word := p.2, start_ms := some ((stt.getD j default).offset_ms),
              end_ms := some ((stt.getD j default).offset_ms +
                (stt.getD j default).duration_ms),
              speaker := none, is_interpolated := false, line_index := 0 })
    (hFn : ∀ p, blockLookup blocks p.1 = none → (F p).start_ms = none) :
    ∀ (ps : List (ℕ × String)) (le : ℕ),
      ps.Pairwise (fun p q => p.1 < q.1) →
      (∀ q ∈ ps, ∀ j, blockLookup blocks q.1 = some j →
        le ≤ (stt.getD j default).offset_ms) →
      AnchChain le (ps.map F) := by
  intro ps
  induction ps with
  | nil => intro le _ _; simp only [List.map_nil, AnchChain]
  | cons p ps ih =>
    intro le hpw hb
    rw [List.map_cons]
    simp only [AnchChain]
    cases hbl : blockLookup blocks p.1 with
    | none =>
      rw [if_neg (by rw [hFn p hbl]; exact Bool.false_ne_true)]
      exact ih le (List.pairwise_cons.mp hpw).2
        (fun q hq j hj => hb q (List.mem_cons_of_mem _ hq) j hj)
    | some j =>
      have hstart : (F p).start_ms = some ((stt.getD j default).offset_ms) := by
        rw [hFs p j hbl]
      have hend : (F p).end_ms = some ((stt.getD j default).offset_ms +
          (stt.getD j default).duration_ms) := by
        rw [hFs p j hbl]
      rw [if_pos (by rw [hstart]; rfl)]
      have hsd : startD (F p) = (stt.getD j default).offset_ms := by
        rw [startD, hstart]
        rfl
      have hed : endD (F p) = (stt.getD j default).offset_ms +
          (stt.getD j default).duration_ms := by
        rw [endD, hend]
        rfl
      refine ⟨by rw [hsd]; exact hb p (List.mem_cons_self _ _) j hbl, ?_⟩
      rw [hed]
      apply ih ((stt.getD j default).offset_ms + (stt.getD j default).duration_ms)
        (List.pairwise_cons.mp hpw).2
      intro q hq j' hj'
      have hlt : p.1 < q.1 := (List.pairwise_cons.mp hpw).1 q hq
      have hmono := blockLookup_mono blocks lg stt.length hIn hord p.1 q.1 j j'
        hlt hbl hj'
      obtain ⟨hjj, hj'len⟩ := hmono
      have hjlen : j < stt.length := by omega
      have e1 : stt.getD j default = stt.get ⟨j, hjlen⟩ := by
        rw [List.getD_eq_getElem stt default hjlen]
        exact (List.get_eq_getElem stt ⟨j, hjlen⟩).symm
      have e2 : stt.getD j' default = stt.get ⟨j', hj'len⟩ := by
        rw [List.getD_eq_getElem stt default hj'len]
        exact (List.get_eq_getElem stt ⟨j', hj'len⟩).symm
      have hR := List.pairwise_iff_get.mp hpair ⟨j, hjlen⟩ ⟨j', hj'len⟩
        (Fin.mk_lt_mk.mpr hjj)
      rw [← e1, ← e2] at hR
      exact hR

/-- The interpolated sub-intervals of one gap chain end-to-start, entering at
the running bound and exiting at the bound carried to the suffix. -/
theorem chainFrom_filled (le per g : ℕ) :
    ∀ (ws : List AnnWord) (n : ℕ) (tail : List AnnWord),
      ChainFrom (le + (n + ws.length) * per / g) tail →
      ChainFrom (le + n * per / g)
        ((List.enumFrom n ws).map (fun p =>
          { p.2 with
            start_ms := some (le + p.1 * per / g),
            end_ms := some (le + (p.1 + 1) * per / g) }) ++ tail) := by
  intro ws
  induction ws with
  | nil =>
    intro n tail h
    simpa using h
  | cons w ws ih =>
    intro n tail h
    rw [show List.enumFrom n (w :: ws) = (n, w) :: List.enumFrom (n + 1) ws from
      rfl]
    rw [List.map_cons, List.cons_append]
    refine ⟨le_of_eq (by rw [startD]; rfl), ?_⟩
    have h' : ChainFrom (le + ((n + 1) + ws.length) * per / g) tail := by
      rw [show (n + 1) + ws.length = n + (w :: ws).length by
        simp only [List.length_cons]; omega]
      exact h
    have hrec := ih (n + 1) tail h'
    rw [show endD { w with
        start_ms := some (le + n * per / g),
        end_ms := some (le + (n + 1) * per / g) } = le + (n + 1) * per / g from
      rfl]
    exact hrec

/-- `fillGaps` never emits `[]` from `[]`. -/
theorem fillGaps_nil (fuel le : ℕ) : fillGaps fuel le [] = [] := by
  cases fuel <;> rfl

/-- Interpolation turns the anchor-chain invariant into the full end-to-start
chain on its output. -/
theorem fillGaps_chainFrom :
    ∀ (fuel le : ℕ) (l : List AnnWord), l.length ≤ fuel → AnchChain le l →
      ChainFrom le (fillGaps fuel le l) := by
  intro fuel
  induction fuel with
  | zero =>
    intro le l hlen _
    rw [Nat.le_zero, List.length_eq_zero] at hlen
    subst hlen
    simp only [fillGaps, ChainFrom]
  | succ fuel ih =>
    intro le l hlen hA
    match l with
    | [] =>
      simp only [fillGaps, ChainFrom]
    | w0 :: rest =>
      simp only [fillGaps]
      by_cases h0 : w0.start_ms.isSome
      · rw [if_pos h0]
        simp only [AnchChain] at hA
        rw [if_pos h0] at hA
        exact ⟨hA.1, ih (w0.end_ms.getD 0) rest (by simpa using hlen) hA.2⟩
      · rw [if_neg h0]
        have hw0none : w0.start_ms = none := by
          cases hs : w0.start_ms with
          | none => rfl
          | some v => rw [hs] at h0; exact absurd rfl h0
        have htake : (w0 :: rest).takeWhile (fun x => x.start_ms.isNone) =
            w0 :: rest.takeWhile (fun x => x.start_ms.isNone) := by
          rw [List.takeWhile_cons_of_pos]
          rw [hw0none]
          rfl
        have hgpos : 0 < ((w0 :: rest).takeWhile
            (fun x => x.start_ms.isNone)).length := by
          rw [htake]
          simp
        have hlensum : ((w0 :: rest).takeWhile
              (fun x => x.start_ms.isNone)).length +
            ((w0 :: rest).dropWhile (fun x => x.start_ms.isNone)).length =
            (w0 :: rest).length := by
          rw [← List.length_append, List.takeWhile_append_dropWhile]
        have hrest : AnchChain le ((w0 :: rest).dropWhile
            (fun x => x.start_ms.isNone)) := by
          apply anchChain_skip
            ((w0 :: rest).dropWhile (fun x => x.start_ms.isNone))
            ((w0 :: rest).takeWhile (fun x => x.start_ms.isNone)) le
          · intro x hx
            have hxp := List.mem_takeWhile_imp hx
            exact hxp
          · rw [List.takeWhile_append_dropWhile]
            exact hA
        cases hdrop : (w0 :: rest).dropWhile (fun x => x.start_ms.isNone) with
        | nil =>
          rw [fillGaps_nil]
          have := chainFrom_filled le
            (le + ((w0 :: rest).takeWhile (fun x => x.start_ms.isNone)).length *
              200 - le)
            ((w0 :: rest).takeWhile (fun x => x.start_ms.isNone)).length
            ((w0 :: rest).takeWhile (fun x => x.start_ms.isNone)) 0 []
            (by simp only [ChainFrom])
          simpa using this
        | cons r rest'' =>
          have hrsome : r.start_ms.isSome = true := by
            have hf : r.start_ms.isNone = false :=
              dropWhile_head_false (fun x => x.start_ms.isNone)
                (w0 :: rest) r rest'' hdrop
            cases hs : r.start_ms with
            | none => rw [hs] at hf; simp at hf
            | some v => rfl
          rw [hdrop] at hrest
          simp only [AnchChain] at hrest
          rw [if_pos hrsome] at hrest
          have hler : le ≤ startD r := hrest.1
          have hdiv : ((w0 :: rest).takeWhile (fun x => x.start_ms.isNone)).length *
              (r.start_ms.getD 0 - le) /
              ((w0 :: rest).takeWhile (fun x => x.start_ms.isNone)).length =
              r.start_ms.getD 0 - le :=
            Nat.mul_div_cancel_left _ hgpos
          have hle' : le + ((w0 :: rest).takeWhile
                (fun x => x.start_ms.isNone)).length *
              (r.start_ms.getD 0 - le) /
              ((w0 :: rest).takeWhile (fun x => x.start_ms.isNone)).length =
              startD r := by
            rw [hdiv]
            have : startD r = r.start_ms.getD 0 := rfl
            omega
          have hAr : AnchChain (startD r) (r :: rest'') := by
            simp only [AnchChain]
            rw [if_pos hrsome]
            exact ⟨le_rfl, hrest.2⟩
          have hfuel : (r :: rest'').length ≤ fuel := by
            rw [hdrop] at hlensum
            simp only [List.length_cons] at hlen hlensum ⊢
            omega
          have := chainFrom_filled le (r.start_ms.getD 0 - le)
            ((w0 :: rest).takeWhile (fun x => x.start_ms.isNone)).length
            ((w0 :: rest).takeWhile (fun x => x.start_ms.isNone)) 0
            (fillGaps fuel (le + ((w0 :: rest).takeWhile
                (fun x => x.start_ms.isNone)).length *
              (r.start_ms.getD 0 - le) /
              ((w0 :: rest).takeWhile (fun x => x.start_ms.isNone)).length)
              (r :: rest''))
            (by
              rw [Nat.zero_add]
              rw [hle']
              exact ih (startD r) (r :: rest'') hfuel hAr)
          simpa using this

/-- The chain invariant yields non-decreasing start timestamps when each entry
is internally well-formed. -/
theorem chainFrom_mono :
    ∀ (l : List AnnWord) (le : ℕ), ChainFrom le l →
      (∀ w ∈ l, startD w ≤ endD w) →
      List.Chain' (fun a b => startD a ≤ startD b) l := by
  intro l
  induction l with
  | nil => intro le _ _; exact List.chain'_nil
  | cons w l ih =>
    intro le hc hwf
    cases l with
    | nil => exact List.Chain.nil
    | cons y l' =>
      have hc1 : le ≤ startD w ∧ ChainFrom (endD w) (y :: l') := hc
      have hhead : endD w ≤ startD y := hc1.2.1
      refine List.Chain'.cons ?_ ?_
      · exact le_trans (hwf w (List.mem_cons_self _ _)) hhead
      · exact ih (endD w) hc1.2
          (fun x hx => hwf x (List.mem_cons_of_mem _ hx))

/-- Mapping an enum-map through the `start_ms` projection forgets the index. -/
theorem map_start_enum_map {β : Type} (l : List β) (f : ℕ × β → AnnWord)
    (wf : β → Option ℕ) (h : ∀ p, (f p).start_ms = wf p.2) :
    ((l.enum.map f).map (fun w => w.start_ms)) = l.map wf := by
  rw [List.map_map]
  have h2 : ((fun w => AnnWord.start_ms w) ∘ f) = (fun p : ℕ × β => wf p.2) :=
    funext h
  rw [h2]
  rw [show (fun p : ℕ × β => wf p.2) = wf ∘ Prod.snd from rfl]
  rw [← List.map_map, List.enum_map_snd]

/-- `_attach_speakers` keeps every `start_ms` in place. -/
theorem attachSpeakers_map_start (l : List AnnWord) (labels : List SpeakerLabel)
    (t : String) :
    (attachSpeakers l labels t).map (fun w => w.start_ms) =
      l.map (fun w => w.start_ms) := by
  unfold attachSpeakers
  apply map_start_enum_map
  intro p
  cases (lineAssignments t).get? p.1 <;> rfl

/-- On an all-timestamped list, collecting the `start_ms` values is mapping the
default-0 accessor. -/
theorem filterMap_start_eq_map :
    ∀ (l : List AnnWord), (∀ w ∈ l, w.start_ms.isSome) →
      l.filterMap (fun w => w.start_ms) = l.map startD := by
  intro l
  induction l with
  | nil => intro _; rfl
  | cons w l ih =>
    intro h
    have hw := h w (List.mem_cons_self _ _)
    rcases Option.isSome_iff_exists.mp hw with ⟨s, hs⟩
    have hsd : startD w = s := by rw [startD, hs]; rfl
    simp only [List.filterMap_cons, hs, List.map_cons, hsd,
      ih (fun x hx => h x (List.mem_cons_of_mem _ hx))]

/-- C4 (amended): when consecutive STT words do not overlap (each word's
`offset_ms + duration_ms` is at most the next word's `offset_ms`), the start
timestamps present in `align_timestamps`' output are non-decreasing in output
order, interpolated words included. Non-decreasing offsets alone do not
suffice, see the counterexample. -/
theorem alignment_monotone (stt : List SttWord) (t : String)
    (hstt : List.Chain' (fun u v => u.offset_ms + u.duration_ms ≤ v.offset_ms)
      stt) :
    List.Chain' (fun a b => a ≤ b)
      ((alignTimestamps stt t).filterMap (fun w => w.start_ms)) := by
  unfold alignTimestamps
  by_cases h : (stripSpeakerLabels t).1.isEmpty ∨ stt.isEmpty
  · rw [if_pos h]
    have hnone : ∀ w ∈ buildFallback (stripSpeakerLabels t).1
        (stripSpeakerLabels t).2, (fun w => w.start_ms) w = none := by
      intro w hw
      unfold buildFallback at hw
      rcases List.mem_map.mp hw with ⟨p, _, rfl⟩
      rfl
    rw [List.filterMap_eq_nil_iff.mpr hnone]
    exact List.chain'_nil
  · rw [if_neg h]
    show List.Chain' (fun a b => a ≤ b)
      ((attachSpeakers (fillGaps (annotateRaw stt t).length 0
          (annotateRaw stt t)) (stripSpeakerLabels t).2 t).filterMap
        (fun w => w.start_ms))
    have hwf : ∀ x ∈ annotateRaw stt t,
        x.start_ms.isSome → x.end_ms.isSome ∧ startD x ≤ endD x :=
      annotate_wellformed stt t
    have htot : ∀ w ∈ fillGaps (annotateRaw stt t).length 0 (annotateRaw stt t),
        w.start_ms.isSome ∧ w.end_ms.isSome ∧ startD w ≤ endD w :=
      fillGaps_total _ 0 _ le_rfl hwf
    have hsome : ∀ w ∈ attachSpeakers (fillGaps (annotateRaw stt t).length 0
        (annotateRaw stt t)) (stripSpeakerLabels t).2 t, w.start_ms.isSome := by
      intro w hw
      rcases attachSpeakers_fields _ _ _ w hw with ⟨w₀, hw₀, hws, _⟩
      rw [hws]
      exact (htot w₀ hw₀).1
    rw [filterMap_start_eq_map _ hsome]
    have h2 : ∀ (l : List AnnWord), l.map startD =
        (l.map (fun w => w.start_ms)).map (fun o => o.getD 0) := by
      intro l
      rw [List.map_map]
      rfl
    have hmapeq : (attachSpeakers (fillGaps (annotateRaw stt t).length 0
          (annotateRaw stt t)) (stripSpeakerLabels t).2 t).map startD =
        (fillGaps (annotateRaw stt t).length 0 (annotateRaw stt t)).map
          startD := by
      rw [h2, h2, attachSpeakers_map_start]
    rw [hmapeq]
    rw [List.chain'_map]
    apply chainFrom_mono _ 0
    · apply fillGaps_chainFrom _ 0 _ le_rfl
      haveI : IsTrans SttWord
          (fun u v => u.offset_ms + u.duration_ms ≤ v.offset_ms) :=
        ⟨fun a b c h1 h2 => by omega⟩
      have hpair := List.chain'_iff_pairwise.mp hstt
      have hmb := matchingBlocks_props
        ((stripSpeakerLabels t).1.map normalizeWord)
        (stt.map (fun w => normalizeWord w.word)) false
      have hIn : ∀ m ∈ matchingBlocks
          ((stripSpeakerLabels t).1.map normalizeWord)
          (stt.map (fun w => normalizeWord w.word)) false,
          BlockIn (stripSpeakerLabels t).1.length stt.length m := by
        intro m hm
        have hb := hmb.1 m hm
        rwa [List.length_map, List.length_map] at hb
      unfold annotateRaw
      apply anchChain_build _ stt (stripSpeakerLabels t).1.length hIn hmb.2
        hpair
      · intro p j hj
        simp only [hj]
      · intro p hj
        simp only [hj]
      · have hr := List.pairwise_lt_range (stripSpeakerLabels t).1.length
        rw [← List.enum_map_fst (stripSpeakerLabels t).1] at hr
        exact List.pairwise_map.mp hr
      · intro q hq j hj
        exact Nat.zero_le _
    · intro w hw
      exact (htot w hw).2.2

/-- Witness: a singleton STT stream and a one-word final text exercise the
main alignment path and give a fully timestamped output. -/
theorem timestamps_total_witness :
    ([⟨"a", 0, 100⟩] : List SttWord) ≠ [] ∧
    (stripSpeakerLabels "a").1 ≠ [] ∧
    ∀ w ∈ alignTimestamps [⟨"a", 0, 100⟩] "a",
      ∃ s e, w.start_ms = some s ∧ w.end_ms = some e ∧ s ≤ e :=
  ⟨by decide, by decide,
    timestamps_total [⟨"a", 0, 100⟩] "a" (by decide) (by decide)⟩

set_option maxHeartbeats 3200000 in
/-- C4 counterexample: `c4stt` has non-decreasing offsets (durations are
naturals, hence non-negative), yet with final text "# % $" — whose words all
survive `_normalize_word`, so `#` and `$` match the two STT words and `%` is
interpolated — the output start timestamps are `[0, 1000, 100]`, which is not
non-decreasing: the interpolated middle word inherits the first word's large
end timestamp. -/
theorem alignment_monotone_cex :
    List.Chain' (fun u v : SttWord => u.offset_ms ≤ v.offset_ms) c4stt ∧
    (alignTimestamps c4stt "# % $").filterMap (fun w => w.start_ms) =
      [0, 1000, 100] ∧
    ¬ List.Chain' (fun a b : ℕ => a ≤ b)
        ((alignTimestamps c4stt "# % $").filterMap (fun w => w.start_ms)) := by
  have heval : (alignTimestamps c4stt "# % $").filterMap (fun w => w.start_ms) =
      [0, 1000, 100] := by decide
  refine ⟨List.Chain.cons (by decide) List.Chain.nil, heval, ?_⟩
  rw [heval]
  intro hch
  have h1 := (List.chain'_cons.mp hch).2
  have h2 := (List.chain'_cons.mp h1).1
  omega

/-- `_normalize_word` under the range-containing regex: ordinary Latin and
Hebrew words collapse to the empty string, while characters outside
U+0027–U+2014 (other than `!"…`) survive. -/
theorem normalizeWord_range_examples :
    normalizeWord "Word9" = "" ∧ normalizeWord "שלום" = "" ∧
    normalizeWord "#" = "#" ∧ normalizeWord "%" = "%" ∧
    normalizeWord "$" = "$" := by decide

set_option maxHeartbeats 1600000 in
/-- Witness: a concrete non-overlapping stream satisfies the amended C4
hypothesis and yields non-decreasing start timestamps. -/
theorem alignment_monotone_witness :
    List.Chain' (fun u v : SttWord => u.offset_ms + u.duration_ms ≤ v.offset_ms)
      c4wstt ∧
    List.Chain' (fun a b : ℕ => a ≤ b)
      ((alignTimestamps c4wstt "a b").filterMap (fun w => w.start_ms)) :=
  ⟨List.Chain.cons (by decide) List.Chain.nil,
    alignment_monotone c4wstt "a b"
      (List.Chain.cons (by decide) List.Chain.nil)⟩

/-- Every piece produced by `splitOnP` is free of separator elements. -/
theorem splitOnP_pieces {α : Type} (p : α → Bool) :
    ∀ (l : List α) (piece : List α), piece ∈ l.splitOnP p →
      ∀ x ∈ piece, p x = false := by
  intro l
  induction l with
  | nil =>
    intro piece hp x hx
    rw [List.splitOnP_nil] at hp
    rcases List.mem_singleton.mp hp with rfl
    cases hx
  | cons a l ih =>
    intro piece hp x hx
    rw [List.splitOnP_cons] at hp
    by_cases ha : p a
    · rw [if_pos ha] at hp
      rcases List.mem_cons.mp hp with rfl | hp'
      · cases hx
      · exact ih piece hp' x hx
    · rw [if_neg ha] at hp
      cases hsp : l.splitOnP p with
      | nil => exact absurd hsp (List.splitOnP_ne_nil p l)
      | cons hd tl =>
        rw [hsp] at hp
        rw [show (hd :: tl).modifyHead (List.cons a) = (a :: hd) :: tl from
          rfl] at hp
        rcases List.mem_cons.mp hp with rfl | hp'
        · rcases List.mem_cons.mp hx with rfl | hx'
          · simpa using ha
          · exact ih hd (by rw [hsp]; exact List.mem_cons_self _ _) x hx'
        · exact ih piece (by rw [hsp]; exact List.mem_cons_of_mem _ hp') x hx

/-- Every piece produced by `splitOn` is free of the separator. -/
theorem splitOn_pieces (a : Char) (l : List Char) (piece : List Char)
    (h : piece ∈ l.splitOn a) : a ∉ piece := by
  intro hmem
  have hp : piece ∈ l.splitOnP (· == a) := by
    simpa [List.splitOn] using h
  have hc := splitOnP_pieces (fun x => x == a) l piece hp a hmem
  simp at hc

/-- `joinWith` is `intercalate` with a singleton separator. -/
theorem joinWith_eq_intercalate (sep : Char) :
    ∀ (ls : List (List Char)), joinWith sep ls = List.intercalate [sep] ls := by
  intro ls
  induction ls with
  | nil => simp [joinWith, List.intercalate]
  | cons l ls ih =>
    cases ls with
    | nil => simp [joinWith, List.intercalate]
    | cons l2 ls2 =>
      show l ++ sep :: joinWith sep (l2 :: ls2) =
        List.intercalate [sep] (l :: l2 :: ls2)
      rw [ih]
      rw [List.intercalate, List.intercalate]
      rw [show List.intersperse [sep] (l :: l2 :: ls2) =
        l :: [sep] :: List.intersperse [sep] (l2 :: ls2) from rfl]
      rw [List.flatten_cons, List.flatten_cons]
      rfl

/-- Membership in `enumFrom` recovers the indexed element. -/
theorem enumFrom_mem_get {α : Type} :
    ∀ (l : List α) (n : ℕ) (p : ℕ × α), p ∈ List.enumFrom n l →
      n ≤ p.1 ∧ l.get? (p.1 - n) = some p.2 := by
  intro l
  induction l with
  | nil => intro n p hp; cases hp
  | cons a l ih =>
    intro n p hp
    rw [show List.enumFrom n (a :: l) = (n, a) :: List.enumFrom (n + 1) l from
      rfl] at hp
    rcases List.mem_cons.mp hp with rfl | hp'
    · refine ⟨le_rfl, ?_⟩
      show (a :: l).get? (n - n) = some a
      rw [Nat.sub_self]
      rfl
    · have h := ih (n + 1) p hp'
      refine ⟨by omega, ?_⟩
      have harr : p.1 - n = (p.1 - (n + 1)) + 1 := by omega
      rw [harr]
      exact h.2

/-- The branch equations of the pass-1 fold step. -/
theorem pass1Step_dup (st : List (List Char) × List Nat × List Char)
    (p : Nat × List Char)
    (hc : fingerprint p.2 = st.2.2 ∧ ¬ (fingerprint p.2).isEmpty) :
    pass1Step st p = (st.1, st.2.1 ++ [p.1 + 1], st.2.2) := by
  simp only [pass1Step, if_pos hc]

theorem pass1Step_keep (st : List (List Char) × List Nat × List Char)
    (p : Nat × List Char)
    (hc : ¬ (fingerprint p.2 = st.2.2 ∧ ¬ (fingerprint p.2).isEmpty)) :
    pass1Step st p = (st.1 ++ [p.2], st.2.1, fingerprint p.2) := by
  simp only [pass1Step, if_neg hc]

/-- Fold invariant of pass 1: kept lines come from the input, the kept count
grows by at most the number of scanned lines, and every removed index points at
an input line whose nonempty fingerprint equals a kept line's fingerprint. -/
theorem pass1_fold_inv (all : List (List Char)) :
    ∀ (ls : List (List Char)) (n : ℕ)
      (st : List (List Char) × List Nat × List Char),
      (∀ l ∈ st.1, l ∈ all) →
      (∀ x ∈ ls, x ∈ all) →
      (st.2.2 ≠ [] → ∃ k ∈ st.1, fingerprint k = st.2.2) →
      (∀ i ∈ st.2.1, ∃ r, all.get? (i - 1) = some r ∧
        ∃ k ∈ st.1, fingerprint r = fingerprint k ∧ fingerprint r ≠ []) →
      (∀ j ∈ List.enumFrom n ls, all.get? j.1 = some j.2) →
      (∀ l ∈ ((List.enumFrom n ls).foldl pass1Step st).1, l ∈ all) ∧
      ((List.enumFrom n ls).foldl pass1Step st).1.length ≤
        st.1.length + ls.length ∧
      (∀ i ∈ ((List.enumFrom n ls).foldl pass1Step st).2.1,
        ∃ r, all.get? (i - 1) = some r ∧
          ∃ k ∈ ((List.enumFrom n ls).foldl pass1Step st).1,
            fingerprint r = fingerprint k ∧ fingerprint r ≠ []) := by
  intro ls
  induction ls with
  | nil =>
    intro n st h1 _ _ h4 _
    refine ⟨h1, ?_, h4⟩
    show st.1.length ≤ st.1.length + ([] : List (List Char)).length
    omega
  | cons a ls ih =>
    intro n st h1 h2 h3 h4 h5
    rw [show List.enumFrom n (a :: ls) = (n, a) :: List.enumFrom (n + 1) ls from
      rfl]
    rw [List.foldl_cons]
    have hna : all.get? n = some a := h5 (n, a) (List.mem_cons_self _ _)
    by_cases hc : fingerprint a = st.2.2 ∧ ¬ (fingerprint a).isEmpty
    · rw [pass1Step_dup st (n, a) hc]
      have hres := ih (n + 1) (st.1, st.2.1 ++ [n + 1], st.2.2)
        h1 (fun x hx => h2 x (List.mem_cons_of_mem _ hx))
        (fun hne => h3 hne)
        ?_ (fun j hj => h5 j (List.mem_cons_of_mem _ hj))
      · refine ⟨hres.1, ?_, hres.2.2⟩
        have hlen := hres.2.1
        simp only [List.length_cons] at hlen ⊢
        omega
      · intro i hi
        rcases List.mem_append.mp hi with hi1 | hi2
        · exact h4 i hi1
        · rcases List.mem_singleton.mp hi2 with rfl
          have hprev : st.2.2 ≠ [] := by
            intro hnil
            rw [hnil] at hc
            exact hc.2 (by rw [hc.1]; rfl)
          rcases h3 hprev with ⟨k, hk, hfk⟩
          refine ⟨a, ?_, k, hk, ?_, ?_⟩
          · rw [show n + 1 - 1 = n by omega]
            exact hna
          · rw [hfk]
            exact hc.1
          · intro hnil
            exact hc.2 (by rw [hnil]; rfl)
    · rw [pass1Step_keep st (n, a) hc]
      have hres := ih (n + 1) (st.1 ++ [a], st.2.1, fingerprint a)
        ?_ (fun x hx => h2 x (List.mem_cons_of_mem _ hx)) ?_ ?_
        (fun j hj => h5 j (List.mem_cons_of_mem _ hj))
      · refine ⟨hres.1, ?_, hres.2.2⟩
        have hlen := hres.2.1
        simp only [List.length_append, List.length_cons, List.length_nil]
          at hlen ⊢
        omega
      · intro l hl
        rcases List.mem_append.mp hl with hl1 | hl2
        · exact h1 l hl1
        · rcases List.mem_singleton.mp hl2 with rfl
          exact h2 l (List.mem_cons_self _ _)
      · intro _
        exact ⟨a, List.mem_append.mpr (Or.inr (List.mem_singleton.mpr rfl)),
          rfl⟩
      · intro i hi
        rcases h4 i hi with ⟨r, hr, k, hk, hfrk, hfr⟩
        exact ⟨r, hr, k, List.mem_append.mpr (Or.inl hk), hfrk, hfr⟩

/-- Pass-1 summary: kept lines are input lines, the count does not grow, and
every removed index points at an input line whose nonempty fingerprint equals
some kept line's fingerprint. -/
theorem dedupPass1_inv (lines : List (List Char)) :
    (∀ l ∈ (dedupPass1 lines).1, l ∈ lines) ∧
    (dedupPass1 lines).1.length ≤ lines.length ∧
    (∀ i ∈ (dedupPass1 lines).2, ∃ r, lines.get? (i - 1) = some r ∧
      ∃ k ∈ (dedupPass1 lines).1, fingerprint r = fingerprint k ∧
        fingerprint r ≠ []) := by
  have h := pass1_fold_inv lines lines 0 ([], [], [])
    (fun l hl => absurd hl (List.not_mem_nil l))
    (fun x hx => hx)
    (fun hne => absurd rfl hne)
    (fun i hi => absurd hi (List.not_mem_nil i))
    (fun j hj => by
      have hg := enumFrom_mem_get lines 0 j hj
      rw [show j.1 - 0 = j.1 from rfl] at hg
      exact hg.2)
  exact ⟨h.1, by have := h.2.1; simpa using this, h.2.2⟩

/-- The near-duplicate pass appends at most one kept line per fuel step. -/
theorem pass2Go_len (lines : List (List Char)) :
    ∀ (fuel i : ℕ) (acc : List (List Char) × List Nat),
      (pass2Go fuel i lines acc).1.length ≤ acc.1.length + fuel := by
  intro fuel
  induction fuel with
  | zero =>
    intro i acc
    simp [pass2Go]
  | succ fuel ih =>
    intro i acc
    simp only [pass2Go]
    split
    · split
      · have h : (pass2Go fuel (i + 1) lines
            (acc.1 ++ [lines.getD i []], acc.2)).1.length ≤
            (acc.1 ++ [lines.getD i []]).length + fuel :=
          ih (i + 1) (acc.1 ++ [lines.getD i []], acc.2)
        simp only [List.length_append, List.length_cons, List.length_nil] at h
        omega
      · split
        · have h : (pass2Go fuel (i + 1) lines
              (acc.1, acc.2 ++ [i + 1])).1.length ≤ acc.1.length + fuel :=
            ih (i + 1) (acc.1, acc.2 ++ [i + 1])
          omega
        · have h : (pass2Go fuel (i + 1) lines
              (acc.1 ++ [lines.getD i []], acc.2)).1.length ≤
              (acc.1 ++ [lines.getD i []]).length + fuel :=
            ih (i + 1) (acc.1 ++ [lines.getD i []], acc.2)
          simp only [List.length_append, List.length_cons, List.length_nil] at h
          omega
    · omega

/-- The near-duplicate pass only keeps lines of its input. -/
theorem pass2Go_mem (lines : List (List Char)) :
    ∀ (fuel i : ℕ) (acc : List (List Char) × List Nat),
      (∀ l ∈ acc.1, l ∈ lines) →
      ∀ l ∈ (pass2Go fuel i lines acc).1, l ∈ lines := by
  intro fuel
  induction fuel with
  | zero =>
    intro i acc h
    simpa [pass2Go] using h
  | succ fuel ih =>
    intro i acc hacc
    simp only [pass2Go]
    by_cases hi : i < lines.length
    · rw [if_pos hi]
      have hmem : lines.getD i [] ∈ lines := by
        rw [List.getD_eq_getElem lines [] hi]
        exact List.getElem_mem hi
      have hkeep : ∀ l ∈ (pass2Go fuel (i + 1) lines
          (acc.1 ++ [lines.getD i []], acc.2)).1, l ∈ lines := by
        apply ih (i + 1) (acc.1 ++ [lines.getD i []], acc.2)
        intro l hl
        rcases List.mem_append.mp hl with hl1 | hl2
        · exact hacc l hl1
        · rcases List.mem_singleton.mp hl2 with rfl
          exact hmem
      split
      · exact hkeep
      · split
        · exact ih (i + 1) (acc.1, acc.2 ++ [i + 1]) (fun l hl => hacc l hl)
        · exact hkeep
    · rw [if_neg hi]
      exact hacc

/-- Pass-2 summary: the kept count never grows. -/
theorem dedupPass2_len (lines : List (List Char)) :
    (dedupPass2 lines).1.length ≤ lines.length := by
  unfold dedupPass2
  split
  · exact le_rfl
  · have h := pass2Go_len lines lines.length 0 ([], [])
    simpa using h

/-- C7 (amended): the Duplicate Collapser never increases the number of lines,
and pass 1 (the fingerprint pass) removes only lines whose nonempty fingerprint
equals the fingerprint of a kept line. The near-duplicate block pass is not
fingerprint-conservative, see the counterexample. -/
theorem dedup_conservative (text : String) :
    ((stageC text).data.splitOn '
').length ≤
      (text.data.splitOn '
').length ∧
    (∀ i ∈ (dedupPass1 (text.data.splitOn '
')).2,
      ∃ r, (text.data.splitOn '
').get? (i - 1) = some r ∧
        ∃ k ∈ (dedupPass1 (text.data.splitOn '
')).1,
          fingerprint r = fingerprint k ∧ fingerprint r ≠ []) := by
  have hp1 := dedupPass1_inv (text.data.splitOn '
')
  refine ⟨?_, hp1.2.2⟩
  have hp2len := dedupPass2_len (dedupPass1 (text.data.splitOn '
')).1
  have hmem2 : ∀ l ∈ (dedupPass2 (dedupPass1 (text.data.splitOn '
')).1).1,
      l ∈ text.data.splitOn '
' := by
    intro l hl
    revert hl
    unfold dedupPass2
    split
    · intro hl
      exact hp1.1 l hl
    · intro hl
      exact hp1.1 l (pass2Go_mem _ _ 0 ([], [])
        (fun x hx => absurd hx (List.not_mem_nil x)) l hl)
  have hfree : ∀ l ∈ (dedupPass2 (dedupPass1 (text.data.splitOn '
')).1).1,
      '\n' ∉ l :=
    fun l hl => splitOn_pieces '\n' text.data l (hmem2 l hl)
  have hdata : (stageC text).data = joinWith '\n'
      (dedupPass2 (dedupPass1 (text.data.splitOn '\n')).1).1 := rfl
  by_cases hKnil : (dedupPass2 (dedupPass1 (text.data.splitOn '\n')).1).1 = []
  · rw [hdata, hKnil]
    have hin : 0 < (text.data.splitOn '\n').length := by
      apply List.length_pos.mpr
      simp only [List.splitOn]
      exact List.splitOnP_ne_nil _ text.data
    show ((joinWith '\n' []).splitOn '\n').length ≤ _
    rw [show joinWith '\n' ([] : List (List Char)) = [] from rfl]
    rw [List.splitOn_nil]
    simpa using hin
  · rw [hdata, joinWith_eq_intercalate,
      List.splitOn_intercalate _ '\n' hfree hKnil]
    exact le_trans hp2len hp1.2.1

set_option maxHeartbeats 3200000 in
/-- C7 counterexample: on `c7text` the near-duplicate block pass removes line 4
("abcdefghix"), whose fingerprint differs from the fingerprint of every kept
line — the stage does remove a fingerprint-unique line. -/
theorem dedup_conservative_cex :
    stageCFull c7text = ("qq\nrr\nabcdefghij", [4]) ∧
    (∀ k ∈ (dedupPass2 (dedupPass1 (c7text.data.splitOn '\n')).1).1,
      fingerprint ((c7text.data.splitOn '\n').getD 3 []) ≠ fingerprint k) := by
  exact ⟨by decide, by decide⟩

/-- Witness for C7 at a concrete input: line 2 is removed by pass 1 and its
fingerprint matches a kept line's fingerprint. -/
theorem dedup_conservative_witness :
    2 ∈ (dedupPass1 (c7wtext.data.splitOn '\n')).2 ∧
    (∃ r, (c7wtext.data.splitOn '\n').get? (2 - 1) = some r ∧
      ∃ k ∈ (dedupPass1 (c7wtext.data.splitOn '\n')).1,
        fingerprint r = fingerprint k ∧ fingerprint r ≠ []) :=
  ⟨by decide, (dedup_conservative c7wtext).2 2 (by decide)⟩

set_option maxHeartbeats 1600000 in
/-- C6: `_stage_a_normalize` is not idempotent. The speaker-tag fix branch of
`_normalize_speaker_tag` returns immediately after replacing the wrong tag,
skipping the ensure-colon normalization the valid-tag branch applies; a second
run then lands in the valid-tag branch and inserts ": " after the fixed tag. -/
theorem stageA_not_idempotent :
    stageA "[חולה] אב" = "[מטופל] אב" ∧
    stageA (stageA "[חולה] אב") = "[מטופל]: אב" ∧
    stageA (stageA "[חולה] אב") ≠ stageA "[חולה] אב" := by
  exact ⟨by decide, by decide, by decide⟩

/-- Pieces of `splitAnyOf` are infixes of the input (and the head piece is a
prefix). -/
theorem splitAnyOf_piece_inf (sep : Char → Bool) :
    ∀ (l : List Char),
      (∀ piece ∈ splitAnyOf sep l, piece <:+: l) ∧
      (∀ w ws, splitAnyOf sep l = w :: ws → w <+: l) := by
  intro l
  induction l with
  | nil =>
    constructor
    · intro piece hp
      rcases List.mem_singleton.mp hp with rfl
      exact List.nil_infix
    · intro w ws hw
      injection hw with hw1 _
      rw [← hw1]
  | cons c l ih =>
    have hstep : splitAnyOf sep (c :: l) =
        (if sep c then [] :: splitAnyOf sep l
         else match splitAnyOf sep l with
           | w :: ws => (c :: w) :: ws
           | [] => [[c]]) := rfl
    by_cases hc : sep c = true
    · rw [hstep, if_pos hc]
      constructor
      · intro piece hp
        rcases List.mem_cons.mp hp with rfl | hp'
        · exact List.nil_infix
        · exact List.infix_cons (ih.1 piece hp')
      · intro w ws hw
        injection hw with hw1 _
        rw [← hw1]
        exact List.nil_prefix
    · rw [hstep, if_neg hc]
      cases hs : splitAnyOf sep l with
      | nil =>
        constructor
        · intro piece hp
          rcases List.mem_singleton.mp hp with rfl
          exact (List.prefix_append [c] l).isInfix
        · intro w ws hw
          injection hw with hw1 _
          rw [← hw1]
          exact List.prefix_append [c] l
      | cons w0 ws0 =>
        constructor
        · intro piece hp
          rcases List.mem_cons.mp hp with rfl | hp'
          · have hw0 : w0 <+: l := ih.2 w0 ws0 hs
            rcases hw0 with ⟨t, ht⟩
            exact (show c :: w0 <+: c :: l from ⟨t, by rw [← ht]; rfl⟩).isInfix
          · apply List.infix_cons
            apply ih.1 piece
            rw [hs]
            exact List.mem_cons_of_mem _ hp'
        · intro w ws hw
          injection hw with hw1 _
          rw [← hw1]
          have hw0 : w0 <+: l := ih.2 w0 ws0 hs
          rcases hw0 with ⟨t, ht⟩
          exact ⟨t, by rw [← ht]; rfl⟩

/-- `strip` returns an infix of its input. -/
theorem pyStrip_inf (l : List Char) : pyStrip l <:+: l := by
  have h1 : l.dropWhile pyIsSpace <:+ l := List.dropWhile_suffix pyIsSpace
  have h2 : ((l.dropWhile pyIsSpace).reverse.dropWhile pyIsSpace).reverse <+:
      l.dropWhile pyIsSpace := by
    have h3 : (l.dropWhile pyIsSpace).reverse.dropWhile pyIsSpace <:+
        (l.dropWhile pyIsSpace).reverse := List.dropWhile_suffix pyIsSpace
    rw [show (l.dropWhile pyIsSpace).reverse.dropWhile pyIsSpace =
        ((l.dropWhile pyIsSpace).reverse.dropWhile pyIsSpace).reverse.reverse
      from (List.reverse_reverse _).symm] at h3
    exact List.reverse_suffix.mp h3
  exact h2.isInfix.trans h1.isInfix

/-- Sentence units of a window are infixes of the window. -/
theorem sentUnits_inf (window : List Char) :
    ∀ s ∈ sentUnits window, s <:+: window := by
  intro s hs
  unfold sentUnits at hs
  have hs1 := List.mem_of_mem_filter hs
  rcases List.mem_map.mp hs1 with ⟨piece, hpiece, rfl⟩
  exact (pyStrip_inf piece).trans ((splitAnyOf_piece_inf sentSep window).1 piece
    hpiece)

/-- `find` succeeds on any infix. -/
theorem findSub_of_inf (hay needle : List Char) (h : needle <:+: hay) :
    findSub hay needle ≠ none := by
  rcases h with ⟨pre, post, hdecomp⟩
  unfold findSub
  intro hnone
  rw [List.find?_eq_none] at hnone
  have hi : pre.length ∈ List.range (hay.length + 1) := by
    rw [List.mem_range, ← hdecomp]
    simp only [List.length_append]
    omega
  apply hnone pre.length hi
  rw [← hdecomp, List.append_assoc, List.drop_left]
  exact List.isPrefixOf_iff_prefix.mpr (List.prefix_append needle post)

/-- The integer test `posSimGt7` decides the rational comparison
`posSim > 0.7`. -/
theorem posSim_gt_iff (s1 s2 : List Char) (h : 0 < max s1.length s2.length) :
    posSimGt7 s1 s2 = true ↔ 7 / 10 < posSim s1 s2 := by
  unfold posSimGt7 posSim
  rw [decide_eq_true_eq]
  rw [div_lt_div_iff₀ (by norm_num : (0:ℚ) < 10)
    (by exact_mod_cast h : (0:ℚ) < (max s1.length s2.length : ℚ))]
  rw [show ((7:ℚ) * (max s1.length s2.length : ℚ) <
      ((((s1.zip s2).filter (fun p => p.1 = p.2)).length : ℕ) : ℚ) * 10) ↔
      ((7 * max s1.length s2.length : ℕ) <
        (((s1.zip s2).filter (fun p => p.1 = p.2)).length * 10 : ℕ)) from by
    exact_mod_cast Iff.rfl]
  omega

/-- A pick-fold over indices none of which satisfies `p` keeps its initial
value. -/
theorem foldl_zero {p : ℕ → Prop} [DecidablePred p] :
    ∀ (ks : List ℕ), (∀ k ∈ ks, ¬ p k) → ∀ init : ℕ,
      ks.foldl (fun b k => if p k then k else b) init = init := by
  intro ks
  induction ks with
  | nil => intro _ _; rfl
  | cons a tl ih =>
    intro hno init
    have ha : ¬ p a := hno a (List.mem_cons_self _ _)
    simp only [List.foldl_cons, if_neg ha]
    exact ih (fun k hk => hno k (List.mem_cons_of_mem _ hk)) init

/-- When no exact suffix/prefix match of size in `[min_overlap, cap]` exists,
the exact search returns 0. -/
theorem exactBest_zero (left right : List Char)
    (h : ∀ k, 50 ≤ k → k ≤ min (min left.length right.length) 800 →
      left.drop (left.length - k) ≠ right.take k) :
    exactBest left right 50 800 = 0 := by
  unfold exactBest
  apply foldl_zero
  intro k hk
  rw [List.mem_range'_1, List.length_drop, List.length_take] at hk
  intro hpk
  rw [window_suffix left 800 k (by omega), window_front right 800 k (by omega)]
    at hpk
  exact h k hk.1 (by omega) hpk

/-- C9: Fuzzy fallback cut point — when no exact overlap of size ≥ 50 exists
inside the capped windows and some pair among the last 10 left-window sentence
units and the first 10 right-window units has both lengths > 30 and positional
ratio > 0.7, the merge cuts the right chunk exactly at such a unit's `find`
offset: the output is `left + "\n" + right[offset:]` (offset 0 when the unit
sits at the very start of the right chunk). -/
theorem fuzzy_fallback_cut (left right : List Char)
    (h1 : ∀ k, 50 ≤ k → k ≤ min (min left.length right.length) 800 →
      left.drop (left.length - k) ≠ right.take k)
    (h2 : ∃ s1 ∈ (sentUnits (left.drop (left.length - 1500))).drop
        ((sentUnits (left.drop (left.length - 1500))).length - 10),
      ∃ s2 ∈ (sentUnits (right.take 1500)).take 10,
        s1.length > 30 ∧ s2.length > 30 ∧ 7 / 10 < posSim s1 s2) :
    ∃ s1 ∈ (sentUnits (left.drop (left.length - 1500))).drop
        ((sentUnits (left.drop (left.length - 1500))).length - 10),
      ∃ s2 ∈ (sentUnits (right.take 1500)).take 10,
        s1.length > 30 ∧ s2.length > 30 ∧ 7 / 10 < posSim s1 s2 ∧
        ∃ i, findSub right s2 = some i ∧
          mergeTwoChunks left right = left ++ '\n' :: right.drop i := by
  have hEB : exactBest left right 50 800 = 0 := exactBest_zero left right h1
  have hov : findOverlap left right =
      (fuzzyCut right (sentUnits (left.drop (left.length - 1500)))
        (sentUnits (right.take 1500))).getD 0 := by
    unfold findOverlap
    rw [hEB]
    rw [if_pos rfl]
  cases hfz : fuzzyCut right (sentUnits (left.drop (left.length - 1500)))
      (sentUnits (right.take 1500)) with
  | some p =>
    have hfz0 := hfz
    unfold fuzzyCut at hfz
    obtain ⟨s1, hs1r, hinner⟩ := List.exists_of_findSome?_eq_some hfz
    obtain ⟨s2, hs2, hif⟩ := List.exists_of_findSome?_eq_some hinner
    have hs1 : s1 ∈ (sentUnits (left.drop (left.length - 1500))).drop
        ((sentUnits (left.drop (left.length - 1500))).length - 10) :=
      List.mem_reverse.mp hs1r
    by_cases hq : s1.length > 30 ∧ s2.length > 30 ∧ posSimGt7 s1 s2
    · rw [if_pos hq] at hif
      cases hfd : findSub right s2 with
      | none =>
        rw [hfd] at hif
        exact Option.noConfusion (show (none : Option ℕ) = some p from hif)
      | some p0 =>
        rw [hfd] at hif
        have hif2 : (if p0 > 0 then some p0 else none) = some p := hif
        by_cases hp0 : p0 > 0
        · rw [if_pos hp0] at hif2
          have hpp : p0 = p := Option.some_injective _ hif2
          subst hpp
          refine ⟨s1, hs1, s2, hs2, hq.1, hq.2.1, ?_, p0, hfd, ?_⟩
          · exact (posSim_gt_iff s1 s2
              (Nat.lt_of_lt_of_le (Nat.zero_lt_of_lt hq.1)
                (le_max_left _ _))).mp hq.2.2
          · unfold mergeTwoChunks
            rw [hov, hfz0]
            simp only [Option.getD_some]
            rw [if_pos hp0]
        · rw [if_neg hp0] at hif2
          exact Option.noConfusion hif2
    · rw [if_neg hq] at hif; cases hif
  | none =>
    obtain ⟨s1, hs1, s2, hs2, h31, h32, hsim⟩ := h2
    have hfz0 := hfz
    unfold fuzzyCut at hfz
    have h1n := List.findSome?_eq_none_iff.mp hfz s1 (List.mem_reverse.mpr hs1)
    have h2n := List.findSome?_eq_none_iff.mp h1n s2 hs2
    have hqt : s1.length > 30 ∧ s2.length > 30 ∧ posSimGt7 s1 s2 = true :=
      ⟨h31, h32, (posSim_gt_iff s1 s2
        (Nat.lt_of_lt_of_le (Nat.zero_lt_of_lt h31)
          (le_max_left _ _))).mpr hsim⟩
    rw [if_pos hqt] at h2n
    have hinf : s2 <:+: right :=
      (sentUnits_inf (right.take 1500) s2 (List.mem_of_mem_take hs2)).trans
        (List.take_prefix 1500 right).isInfix
    cases hfd : findSub right s2 with
    | none => exact absurd hfd (findSub_of_inf right s2 hinf)
    | some p0 =>
      rw [hfd] at h2n
      have h2n2 : (if p0 > 0 then some p0 else none) = (none : Option ℕ) := h2n
      by_cases hp0 : p0 > 0
      · rw [if_pos hp0] at h2n2
        exact Option.noConfusion h2n2
      · have hp00 : p0 = 0 := by omega
        subst hp00
        refine ⟨s1, hs1, s2, hs2, h31, h32, hsim, 0, hfd, ?_⟩
        unfold mergeTwoChunks
        rw [hov, hfz0]
        simp only [Option.getD_none]
        rw [if_neg (by omega : ¬ (0 : ℕ) > 0), List.drop_zero]

set_option maxHeartbeats 3200000 in
/-- Witness for C9 at a concrete pair sharing one long sentence: no exact
overlap of size ≥ 50 exists, the shared sentence qualifies (length 59 > 30,
ratio 1 > 0.7), and the merge cuts the right chunk at its offset. -/
theorem fuzzy_fallback_cut_witness :
    ∃ s1 ∈ (sentUnits (c9left.data.drop (c9left.data.length - 1500))).drop
        ((sentUnits (c9left.data.drop (c9left.data.length - 1500))).length - 10),
      ∃ s2 ∈ (sentUnits (c9right.data.take 1500)).take 10,
        s1.length > 30 ∧ s2.length > 30 ∧ 7 / 10 < posSim s1 s2 ∧
        ∃ i, findSub c9right.data s2 = some i ∧
          mergeTwoChunks c9left.data c9right.data =
            c9left.data ++ '\n' :: c9right.data.drop i := by
  apply fuzzy_fallback_cut
  · intro k h50 hle
    have hm : min (min c9left.data.length c9right.data.length) 800 = 63 := by
      decide
    rw [hm] at hle
    have hb : ∀ k < 64, 50 ≤ k →
        c9left.data.drop (c9left.data.length - k) ≠ c9right.data.take k := by
      decide
    exact hb k (by omega) h50
  · exact ⟨c9sent.data, by decide, c9sent.data, by decide, by decide, by decide,
      (posSim_gt_iff c9sent.data c9sent.data (by decide)).mp (by decide)⟩

theorem stageEValidate_validation (text : String) (rep : Report) :
    (stageEValidate text rep).validation_passed =
      ((rep.stage_e_numbers_before.dedup.filter
          (fun n => ¬ (extractNumbers text).contains n)).isEmpty &&
        ((rep.stage_e_medical_terms_before.filter
          (fun t => ¬ (extractMedicalTerms text).contains t)).isEmpty &&
        rep.validation_passed)) := by
  simp only [stageEValidate]
  by_cases hN : (rep.stage_e_numbers_before.dedup.filter
      (fun n => ¬ (extractNumbers text).contains n)).isEmpty = true
  · rw [if_neg (not_not_intro hN)]
    simp only []
    by_cases hT : (rep.stage_e_medical_terms_before.filter
        (fun t => ¬ (extractMedicalTerms text).contains t)).isEmpty = true
    · rw [if_neg (not_not_intro hT)]
      rw [hN, hT]
      simp
    · rw [if_pos hT]
      rw [show (rep.stage_e_medical_terms_before.filter
          (fun t => ¬ (extractMedicalTerms text).contains t)).isEmpty = false
        from Bool.eq_false_iff.mpr hT]
      simp
  · rw [if_pos hN]
    simp only []
    rw [show (rep.stage_e_numbers_before.dedup.filter
        (fun n => ¬ (extractNumbers text).contains n)).isEmpty = false
      from Bool.eq_false_iff.mpr hN]
    simp only [Bool.false_and]
    by_cases hT : (rep.stage_e_medical_terms_before.filter
        (fun t => ¬ (extractMedicalTerms text).contains t)).isEmpty = true
    · rw [if_neg (not_not_intro hT)]
    · rw [if_pos hT]

theorem foldl_warn_preserve (total : ℕ) :
    ∀ (counts : List (List Char × ℕ)) (r : Report),
      (counts.foldl
        (fun r p =>
          if 10 * p.2 > 9 * total then
            { r with stage_e_warnings := r.stage_e_warnings ++
              ["Speaker imbalance: " ++ (⟨p.1⟩ : String) ++ " has " ++
                toString p.2 ++ "/" ++ toString total ++ " lines"] }
          else r) r).validation_passed = r.validation_passed := by
  intro counts
  induction counts with
  | nil => intro r; rfl
  | cons c cs ih =>
    intro r
    rw [List.foldl_cons, ih]
    by_cases hc : 10 * c.2 > 9 * total
    · rw [if_pos hc]
    · rw [if_neg hc]

theorem stageEAdvisory_validation (text : String) (rep : Report) :
    (stageEAdvisory text rep).validation_passed = rep.validation_passed := by
  simp only [stageEAdvisory]
  split
  · rfl
  · rfl

theorem stageESpeakers_validation (text : String) (rep : Report) :
    (stageESpeakers text rep).validation_passed = rep.validation_passed := by
  simp only [stageESpeakers]
  split
  · rw [foldl_warn_preserve]
    split
    · rfl
    · rfl
  · split
    · rfl
    · rfl

theorem stageE_text (text : String) (rep : Report) : (stageE text rep).1 = text :=
  rfl

theorem stageE_validation_eq (text : String) (rep : Report) :
    (stageE text rep).2.validation_passed =
      ((rep.stage_e_numbers_before.dedup.filter
          (fun n => ¬ (extractNumbers text).contains n)).isEmpty &&
        ((rep.stage_e_medical_terms_before.filter
          (fun t => ¬ (extractMedicalTerms text).contains t)).isEmpty &&
        rep.validation_passed)) := by
  show (stageESpeakers text (stageEAdvisory text
    (stageEValidate text rep))).validation_passed = _
  rw [stageESpeakers_validation, stageEAdvisory_validation,
    stageEValidate_validation]

theorem stageD_validation (client : Option RewriteFn) (text : String)
    (rep : Report) :
    (stageD client text rep).2.validation_passed = rep.validation_passed := by
  cases client with
  | none => rfl
  | some f =>
    cases hf : f text with
    | ok r =>
      by_cases hlen : 10 * r.length < 9 * text.length
      · simp [stageD, hf, if_pos hlen]
      · simp [stageD, hf, if_neg hlen]
    | error e => simp [stageD, hf]

theorem stageD_numbers_before (client : Option RewriteFn) (text : String)
    (rep : Report) :
    (stageD client text rep).2.stage_e_numbers_before =
      rep.stage_e_numbers_before := by
  cases client with
  | none => rfl
  | some f =>
    cases hf : f text with
    | ok r =>
      by_cases hlen : 10 * r.length < 9 * text.length
      · simp [stageD, hf, if_pos hlen]
      · simp [stageD, hf, if_neg hlen]
    | error e => simp [stageD, hf]

theorem stageD_terms_before (client : Option RewriteFn) (text : String)
    (rep : Report) :
    (stageD client text rep).2.stage_e_medical_terms_before =
      rep.stage_e_medical_terms_before := by
  cases client with
  | none => rfl
  | some f =>
    cases hf : f text with
    | ok r =>
      by_cases hlen : 10 * r.length < 9 * text.length
      · simp [stageD, hf, if_pos hlen]
      · simp [stageD, hf, if_neg hlen]
    | error e => simp [stageD, hf]

theorem stageABC_validation (text : String) :
    (stageABC text).2.validation_passed = true := rfl

theorem stageABC_numbers_before (text : String) :
    (stageABC text).2.stage_e_numbers_before = extractNumbers text := rfl

theorem stageABC_terms_before (text : String) :
    (stageABC text).2.stage_e_medical_terms_before =
      extractMedicalTerms text := rfl

theorem process_validation (text : String) (useLlm : Bool)
    (client : Option RewriteFn) :
    (process text useLlm client).2.validation_passed =
      (((extractNumbers text).dedup.filter
          (fun n => ¬ (extractNumbers (process text useLlm client).1).contains
            n)).isEmpty &&
        ((extractMedicalTerms text).filter
          (fun t => ¬ (extractMedicalTerms
            (process text useLlm client).1).contains t)).isEmpty) := by
  cases useLlm with
  | false =>
    show (stageE (stageABC text).1 (stageABC text).2).2.validation_passed =
      (((extractNumbers text).dedup.filter
          (fun n => ¬ (extractNumbers
            (stageE (stageABC text).1 (stageABC text).2).1).contains
            n)).isEmpty &&
        ((extractMedicalTerms text).filter
          (fun t => ¬ (extractMedicalTerms
            (stageE (stageABC text).1 (stageABC text).2).1).contains
            t)).isEmpty)
    simp only [stageE_validation_eq, stageE_text, stageABC_validation,
      stageABC_numbers_before, stageABC_terms_before, Bool.and_true]
  | true =>
    show (stageE (stageD client (stageABC text).1 (stageABC text).2).1
        (stageD client (stageABC text).1 (stageABC text).2).2).2.validation_passed =
      (((extractNumbers text).dedup.filter
          (fun n => ¬ (extractNumbers
            (stageE (stageD client (stageABC text).1 (stageABC text).2).1
              (stageD client (stageABC text).1 (stageABC text).2).2).1).contains
            n)).isEmpty &&
        ((extractMedicalTerms text).filter
          (fun t => ¬ (extractMedicalTerms
            (stageE (stageD client (stageABC text).1 (stageABC text).2).1
              (stageD client (stageABC text).1 (stageABC text).2).2).1).contains
            t)).isEmpty)
    simp only [stageE_validation_eq, stageE_text, stageD_validation,
      stageD_numbers_before, stageD_terms_before, stageABC_validation,
      stageABC_numbers_before, stageABC_terms_before, Bool.and_true]

theorem contains_true_iff (l : List String) (a : String) :
    l.contains a = true ↔ a ∈ l := by
  simp

theorem isEmpty_false_iff (l : List String) :
    l.isEmpty = false ↔ ∃ x, x ∈ l := by
  cases l with
  | nil => simp
  | cons a l =>
    constructor
    · intro _
      exact ⟨a, List.mem_cons_self _ _⟩
    · intro _
      rfl

/-- C2: Output-validator semantics — after a full `process` run,
`validation_passed` is false exactly when some number or some medical term
extracted from the input is absent from the final text. Terms appearing only
after (the advisory path) and the speaker statistics never clear or set the
flag, and the validator is a total function (it never raises). -/
theorem validation_passed_iff (text : String) (useLlm : Bool)
    (client : Option RewriteFn) :
    ((process text useLlm client).2.validation_passed = false ↔
      ((∃ n ∈ extractNumbers text,
          n ∉ extractNumbers (process text useLlm client).1) ∨
        (∃ t ∈ extractMedicalTerms text,
          t ∉ extractMedicalTerms (process text useLlm client).1))) := by
  rw [process_validation]
  rw [Bool.and_eq_false_iff]
  apply or_congr
  · constructor
    · intro h
      rcases (isEmpty_false_iff _).mp h with ⟨x, hx⟩
      have hx1 := List.mem_of_mem_filter hx
      have hx2 := List.of_mem_filter hx
      rw [decide_eq_true_eq] at hx2
      refine ⟨x, List.mem_dedup.mp hx1, ?_⟩
      intro hmem
      exact hx2 ((contains_true_iff _ _).mpr hmem)
    · intro h
      rcases h with ⟨n, hn, hnot⟩
      apply (isEmpty_false_iff _).mpr
      refine ⟨n, List.mem_filter.mpr ⟨List.mem_dedup.mpr hn, ?_⟩⟩
      rw [decide_eq_true_eq]
      intro hc
      exact hnot ((contains_true_iff _ _).mp hc)
  · constructor
    · intro h
      rcases (isEmpty_false_iff _).mp h with ⟨x, hx⟩
      have hx1 := List.mem_of_mem_filter hx
      have hx2 := List.of_mem_filter hx
      rw [decide_eq_true_eq] at hx2
      refine ⟨x, hx1, ?_⟩
      intro hmem
      exact hx2 ((contains_true_iff _ _).mpr hmem)
    · intro h
      rcases h with ⟨t, ht, hnot⟩
      apply (isEmpty_false_iff _).mpr
      refine ⟨t, List.mem_filter.mpr ⟨ht, ?_⟩⟩
      rw [decide_eq_true_eq]
      intro hc
      exact hnot ((contains_true_iff _ _).mp hc)

end MedTrans
